import Mathlib

/-!
Verification of the varnish variable store and resolution engine.

The Go sources are shallowly embedded: strings are Lean strings (operated on
as their character lists), Go maps are association lists updated in place,
fallible functions return `Except`, and file contents are explicit values.
-/

set_option maxHeartbeats 1000000
set_option maxRecDepth 4000

namespace Varnish

/-! ## Glob matching (internal/resolver, matchPattern + Go filepath.Match)

`matchPattern` substitutes `'.'` by NUL in both pattern and key and calls
Go's `filepath.Match` (path separator `'/'`), falling back to string
equality when `filepath.Match` reports a malformed pattern.  The
`filepath.Match` algorithm is embedded below, function by function
(`scanChunk`'s loop, `getEsc`, the range loop of `matchChunk`, `matchChunk`,
the star-skipping loop of `Match`, and `Match` itself).  Each character
stands for one rune.  The subtype components only carry structural facts
used for termination; the computed values mirror the Go code exactly.
-/

/-- The dot-to-NUL substitution `strings.ReplaceAll(s, ".", "\x00")`
applied by `matchPattern` so that `filepath.Match` treats `'.'` as an
ordinary literal character, applied to a single character. -/
def subDot (c : Char) : Char := if c = '.' then Char.ofNat 0 else c

/-- `strings.ReplaceAll(s, ".", "\x00")` on a whole string (as a list). -/
def subDotL (l : List Char) : List Char := l.map subDot

/-- The scanning loop of Go `scanChunk` (after the leading stars have been
stripped): copies characters into the chunk until a top-level `'*'`,
tracking `[ ]` ranges and skipping the character after a backslash.
Returns `(chunk, rest)`; the attached proof records that the two parts
re-assemble the input, that the rest is empty or starts with `'*'`, and
that the chunk is only empty when nothing was consumed. -/
def scanChunkCore : (inrange : Bool) → (l : List Char) →
    {p : List Char × List Char //
      p.1 ++ p.2 = l ∧ (p.2 = [] ∨ ∃ cs, p.2 = '*' :: cs) ∧ (p.1 = [] → p.2 = l)}
  | _, [] => ⟨([], []), by simp⟩
  | inrange, c :: rest =>
    if c = '\\' then
      match rest with
      | [] => ⟨([c], []), by simp⟩
      | d :: rest₂ =>
        let q := scanChunkCore inrange rest₂
        ⟨(c :: d :: q.1.1, q.1.2), by
          refine ⟨?_, q.2.2.1, ?_⟩
          · simp [q.2.1]
          · intro h
            simp at h⟩
    else if c = '[' then
      let q := scanChunkCore true rest
      ⟨(c :: q.1.1, q.1.2), by
        refine ⟨?_, q.2.2.1, ?_⟩
        · simp [q.2.1]
        · intro h
          simp at h⟩
    else if c = ']' then
      let q := scanChunkCore false rest
      ⟨(c :: q.1.1, q.1.2), by
        refine ⟨?_, q.2.2.1, ?_⟩
        · simp [q.2.1]
        · intro h
          simp at h⟩
    else if h4 : c = '*' then
      if inrange then
        let q := scanChunkCore inrange rest
        ⟨(c :: q.1.1, q.1.2), by
          refine ⟨?_, q.2.2.1, ?_⟩
          · simp [q.2.1]
          · intro h
            simp at h⟩
      else
        ⟨([], c :: rest), by subst h4; exact ⟨rfl, Or.inr ⟨rest, rfl⟩, fun _ => rfl⟩⟩
    else
      let q := scanChunkCore inrange rest
      ⟨(c :: q.1.1, q.1.2), by
        refine ⟨?_, q.2.2.1, ?_⟩
        · simp [q.2.1]
        · intro h
          simp at h⟩

/-- Go `getEsc`: reads one (possibly backslash-escaped) character of a
character range; rejects a leading `'-'` or `']'`, a dangling escape, and
a character not followed by anything. -/
def getEsc : (l : List Char) → Except Unit (Char × {r : List Char // r.length < l.length})
  | [] => .error ()
  | c :: rest =>
    if c = '-' ∨ c = ']' then .error ()
    else if c = '\\' then
      match rest with
      | [] => .error ()
      | d :: rest₂ =>
        if rest₂.isEmpty then .error ()
        else .ok (d, ⟨rest₂, by simp [Nat.lt_succ_iff]⟩)
    else if rest.isEmpty then .error ()
    else .ok (c, ⟨rest, by simp⟩)

/-- The range-parsing loop inside Go `matchChunk`'s `'['` case: consumes
`lo` (`-` `hi`) pairs until the closing `']'` (at least one range is
required), accumulating whether `r` falls in some range. -/
def matchRanges (r : Char) (chunk : List Char) (acc hasRange : Bool) :
    Except Unit (Bool × {rest : List Char // rest.length ≤ chunk.length}) :=
  if chunk.head? = some ']' ∧ hasRange then
    .ok (acc, ⟨chunk.tail, by cases chunk <;> simp⟩)
  else
    match getEsc chunk with
    | .error _ => .error ()
    | .ok (lo, ⟨chunk₁, h₁⟩) =>
      if chunk₁.head? = some '-' then
        match getEsc chunk₁.tail with
        | .error _ => .error ()
        | .ok (hi, ⟨chunk₃, h₃⟩) =>
          match matchRanges r chunk₃ (acc || decide (lo ≤ r ∧ r ≤ hi)) true with
          | .error e => .error e
          | .ok (b, ⟨rest, hr⟩) =>
            .ok (b, ⟨rest, by
              simp only [List.length_tail] at h₃
              omega⟩)
      else
        match matchRanges r chunk₁ (acc || decide (lo ≤ r ∧ r ≤ lo)) true with
        | .error e => .error e
        | .ok (b, ⟨rest, hr⟩) => .ok (b, ⟨rest, by omega⟩)
termination_by chunk.length
decreasing_by
  all_goals try simp only [List.length_tail] at *
  all_goals omega

/-- Go `matchChunk`: matches a chunk (no top-level `'*'`) against the head
of `s`, returning the remainder of `s` and whether it matched; once a
mismatch is recorded in `failed` the rest of the chunk is only checked for
syntax errors.  Separator is `'/'`. -/
def matchChunkGo : (chunk s : List Char) → (failed : Bool) → Except Unit (List Char × Bool)
  | [], s, failed => if failed then .ok ([], false) else .ok (s, true)
  | c :: chunkRest, s, failed =>
    let failed₁ := failed || s.isEmpty
    if c = '[' then
      let r := if failed₁ then Char.ofNat 0 else s.headD (Char.ofNat 0)
      let s₁ := if failed₁ then s else s.tail
      if chunkRest.head? = some '^' then
        match matchRanges r chunkRest.tail false false with
        | .error _ => .error ()
        | .ok (m, ⟨chunk₂, _hb⟩) => matchChunkGo chunk₂ s₁ (failed₁ || (m == true))
      else
        match matchRanges r chunkRest false false with
        | .error _ => .error ()
        | .ok (m, ⟨chunk₂, _hb⟩) => matchChunkGo chunk₂ s₁ (failed₁ || (m == false))
    else if c = '?' then
      if failed₁ then matchChunkGo chunkRest s true
      else matchChunkGo chunkRest s.tail (decide (s.headD (Char.ofNat 0) = '/'))
    else if c = '\\' then
      match chunkRest with
      | [] => .error ()
      | d :: chunkR₂ =>
        if failed₁ then matchChunkGo chunkR₂ s true
        else matchChunkGo chunkR₂ s.tail (decide (d ≠ s.headD (Char.ofNat 0)))
    else
      if failed₁ then matchChunkGo chunkRest s true
      else matchChunkGo chunkRest s.tail (decide (c ≠ s.headD (Char.ofNat 0)))
termination_by chunk _ _ => chunk.length
decreasing_by
  all_goals try simp only [List.length_cons, List.length_tail] at *
  all_goals omega

/-- The star-skipping loop of Go `Match`: looks for the first position
`i ≥ 1` (never skipping past a `'/'`) at which the chunk matches; when the
chunk is the last one the match must also exhaust the name.  Returns the
remainder after the committed match, or `none` when no position works. -/
def starSearch (chunk : List Char) (lastChunk : Bool) : List Char → Except Unit (Option (List Char))
  | [] => .ok none
  | c :: name₁ =>
    if c = '/' then .ok none
    else
      match matchChunkGo chunk name₁ false with
      | .error _ => .error ()
      | .ok (t, ok) =>
        if ok then
          if lastChunk && !t.isEmpty then starSearch chunk lastChunk name₁
          else .ok (some t)
        else starSearch chunk lastChunk name₁

/-- The final loop of Go `Match`: before returning a no-error `false`, the
remainder of the pattern is scanned for syntax errors by matching each
chunk against the empty string. -/
def patCheck (pattern : List Char) : Except Unit Bool :=
  if hne : pattern.isEmpty then .ok false
  else
    let sc := scanChunkCore false (pattern.dropWhile (fun c => c = '*'))
    match matchChunkGo sc.1.1 [] false with
    | .error _ => .error ()
    | .ok _ => patCheck sc.1.2
termination_by pattern.length
decreasing_by
  all_goals
    rcases hsc : scanChunkCore false (pattern.dropWhile (fun c => decide (c = '*'))) with
      ⟨⟨chunk, rest⟩, happ, hstar, hempty⟩
    dsimp only at happ hstar hempty
    show rest.length < pattern.length
    have hplen : 0 < pattern.length := by
      cases pattern
      · simp at hne
      · simp
    have hdw : ∀ l : List Char, (l.dropWhile (fun c => decide (c = '*'))).length ≤ l.length := by
      intro l
      induction l with
      | nil => simp
      | cons a l ih =>
        rw [List.dropWhile_cons]
        split
        · exact le_trans ih (by simp)
        · simp
    have hhd : ∀ (l : List Char) (c : Char),
        (l.dropWhile (fun c => decide (c = '*'))).head? = some c →
          decide (c = '*') = false := by
      intro l c
      induction l with
      | nil => simp [List.dropWhile]
      | cons a l ih =>
        rw [List.dropWhile_cons]
        split
        · exact ih
        · rename_i ha
          intro h
          simp only [List.head?_cons, Option.some.injEq] at h
          subst h
          simpa using ha
    by_cases hc : chunk = []
    · have hrS := hempty hc
      rcases hstar with h2 | ⟨cs, h2⟩
      · rw [h2]
        simpa using hplen
      · exfalso
        have hbad : decide ('*' = '*') = false := by
          refine hhd pattern '*' ?_
          rw [← hrS, h2]
          rfl
        simp at hbad
    · have hcpos : 0 < chunk.length := List.length_pos.mpr hc
      have hlen := congrArg List.length happ
      simp only [List.length_append] at hlen
      have hS := hdw pattern
      omega

/-- Go `filepath.Match` (on Linux: separator `'/'`, backslash escaping
active): the main chunk-by-chunk loop.  `.error ()` is `ErrBadPattern`. -/
def goMatch : (pattern name : List Char) → Except Unit Bool
  | [], name => .ok name.isEmpty
  | p₀ :: pRest, name =>
    let sc := scanChunkCore false ((p₀ :: pRest).dropWhile (fun c => c = '*'))
    if decide (p₀ = '*') && sc.1.1.isEmpty then .ok (!name.contains '/')
    else
      match matchChunkGo sc.1.1 name false with
      | .error _ => .error ()
      | .ok (t, tok) =>
        if tok && (t.isEmpty || !sc.1.2.isEmpty) then goMatch sc.1.2 t
        else if decide (p₀ = '*') then
          match starSearch sc.1.1 sc.1.2.isEmpty name with
          | .error _ => .error ()
          | .ok (some t₂) => goMatch sc.1.2 t₂
          | .ok none => patCheck sc.1.2
        else patCheck sc.1.2
termination_by pattern _ => pattern.length
decreasing_by
  all_goals
    rcases hsc : scanChunkCore false ((p₀ :: pRest).dropWhile (fun c => decide (c = '*'))) with
      ⟨⟨chunk, rest⟩, happ, hstar, hempty⟩
    dsimp only at happ hstar hempty
    show rest.length < (p₀ :: pRest).length
    have hdw : ∀ l : List Char, (l.dropWhile (fun c => decide (c = '*'))).length ≤ l.length := by
      intro l
      induction l with
      | nil => simp
      | cons a l ih =>
        rw [List.dropWhile_cons]
        split
        · exact le_trans ih (by simp)
        · simp
    have hhd : ∀ c : Char,
        ((p₀ :: pRest).dropWhile (fun c => decide (c = '*'))).head? = some c →
          decide (c = '*') = false := by
      generalize p₀ :: pRest = l
      intro c
      induction l with
      | nil => simp [List.dropWhile]
      | cons a l ih =>
        rw [List.dropWhile_cons]
        split
        · exact ih
        · rename_i ha
          intro h
          simp only [List.head?_cons, Option.some.injEq] at h
          subst h
          simpa using ha
    have hlen := congrArg List.length happ
    simp only [List.length_append] at hlen
    have hS := hdw (p₀ :: pRest)
    by_cases hc : chunk = []
    · have hrS := hempty hc
      rcases hstar with h2 | ⟨cs, h2⟩
      · rw [h2]
        simp
      · exfalso
        have hbad : decide ('*' = '*') = false := by
          refine hhd '*' ?_
          rw [← hrS, h2]
          rfl
        simp at hbad
    · have hcpos : 0 < chunk.length := List.length_pos.mpr hc
      simp only [List.length_cons] at *
      omega

/-- `matchPattern` from internal/resolver: substitutes `'.'` by NUL on
both sides, calls `filepath.Match`, and on `ErrBadPattern` falls back to
literal string equality. -/
def matchPattern (pattern key : String) : Bool :=
  match goMatch (subDotL pattern.data) (subDotL key.data) with
  | .ok m => m
  | .error _ => pattern == key

/-- Glob semantics as the specification words them: `*` matches any run of
characters and every other character of the pattern (dot included) is
compared literally with the corresponding character of the key. -/
def globMatch : List Char → List Char → Bool
  | [], k => k.isEmpty
  | c :: p, k =>
    if c = '*' then
      globMatch p k ||
        (match k with
         | [] => false
         | _ :: k₁ => globMatch (c :: p) k₁)
    else
      match k with
      | [] => false
      | c₁ :: k₁ => c = c₁ && globMatch p k₁
termination_by p k => (k.length, p.length)


/-! ## Data model (internal/store.Store, internal/project.Config, resolver) -/

/-- `store.Store`: the central variable store.  The Go map of variables is
modelled as an association list with pairwise-distinct keys (Go map
iteration order is arbitrary; all observable results below are
order-independent, and the list order is the deterministic stand-in). -/
structure Store where
  Version : Nat
  Variables : List (String × String)
  encrypted : Bool
deriving DecidableEq, Repr

/-- `store.New`: empty store with version 1 and an empty, initialized
variables map; the encrypted flag is unset. -/
def Store.New : Store := { Version := 1, Variables := [], encrypted := false }

/-- `project.Config`: the per-project configuration consumed by the
resolver.  The Go declaration of this struct is not among the given source
files (only its tests and callers are); its shape is fixed by the
resolver's field accesses and by §3 of the specification: `project`,
`include` (ordered pattern list) and the three string maps. -/
structure Config where
  Version : Nat
  Project : String
  Include : List String
  Overrides : List (String × String)
  Mappings : List (String × String)
  Computed : List (String × String)
deriving DecidableEq, Repr

/-- `resolver.ResolvedVar`. -/
structure ResolvedVar where
  EnvName : String
  Value : String
  Source : String
  Key : String
deriving DecidableEq, Repr

/-- `resolver.Resolver`. -/
structure Resolver where
  store : Store
  project : Config
deriving Repr

/-- Go map read `m[k]` on the association-list model. -/
def lookupA {α : Type} : List (String × α) → String → Option α
  | [], _ => none
  | (k₁, v₁) :: rest, k => if k₁ = k then some v₁ else lookupA rest k

/-- Go map write `m[k] = v` on the association-list model: replaces the
binding in place if the key is present, otherwise appends it. -/
def setKey {α : Type} : List (String × α) → String → α → List (String × α)
  | [], k, v => [(k, v)]
  | (k₁, v₁) :: rest, k, v =>
    if k₁ = k then (k, v) :: rest else (k₁, v₁) :: setKey rest k v

/-- The namespace prefix computed at the top of `Resolve`, `MissingVars`
and `interpolate`: `project + "."` when the project name is non-empty. -/
def Resolver.pfx (r : Resolver) : String :=
  if r.project.Project = "" then "" else r.project.Project ++ "."

/-- Logical-key extraction in step 1 of `Resolve`:
`strings.TrimPrefix(storeKey, prefix)` guarded by a `strings.HasPrefix`
test (and by the prefix being non-empty). -/
def logicalKey (pfx storeKey : String) : String :=
  if pfx ≠ "" ∧ pfx.data.isPrefixOf storeKey.data then ⟨storeKey.data.drop pfx.data.length⟩
  else storeKey

/-- Step 1 of `Resolve`: for each include pattern, scan every store
variable and record `(logicalKey, value, "store")` for the keys matching
`prefix + pattern`. -/
def resolveStep1 (r : Resolver) : List (String × String × String) :=
  r.project.Include.foldl
    (fun acc pat =>
      r.store.Variables.foldl
        (fun acc kv =>
          if matchPattern (r.pfx ++ pat) kv.1 then
            setKey acc (logicalKey r.pfx kv.1) (kv.2, "store")
          else acc)
        acc)
    []

/-- Step 2 of `Resolve`: unconditionally write every override into the
merge map as `(key, value, "override")`. -/
def resolveMerge (r : Resolver) : List (String × String × String) :=
  r.project.Overrides.foldl (fun acc kv => setKey acc kv.1 (kv.2, "override")) (resolveStep1 r)

/-- The default key-to-name transform of `keyToEnvName`:
`strings.ToUpper(strings.ReplaceAll(key, ".", "_"))`, fused into one
character map (replacing `'.'` first and uppercasing then is the same as
this pointwise map, because `'_'.toUpper = '_'`). -/
def defaultEnvName (key : String) : String :=
  ⟨key.data.map (fun c => if c = '.' then '_' else c.toUpper)⟩

/-- `Resolver.keyToEnvName`: an explicit mapping wins, otherwise the
default transform applies. -/
def Resolver.keyToEnvName (r : Resolver) (key : String) : String :=
  match lookupA r.project.Mappings key with
  | some envName => envName
  | none => defaultEnvName key

/-- Step 3 of `Resolve`: turn the merge map into a map from environment
variable names to `ResolvedVar`s. -/
def resolveVars (r : Resolver) : List (String × ResolvedVar) :=
  (resolveMerge r).foldl
    (fun acc kv =>
      let envName := r.keyToEnvName kv.1
      setKey acc envName ⟨envName, kv.2.1, kv.2.2, kv.1⟩)
    []

/-- The interpolation context built in step 4 of `Resolve`: the plain
key-to-value map of the merge map (sources dropped), built before any
computed value is evaluated. -/
def resolveValueMap (r : Resolver) : List (String × String) :=
  (resolveMerge r).map (fun kv => (kv.1, kv.2.1))

/-- The text of a `$\x7b...\x7d` reference for a given identifier. -/
def placeholder (ident : List Char) : List Char :=
  '$' :: '{' :: (ident ++ ['}'])

/-- The replacement function passed to `regexp.ReplaceAllStringFunc` in
`interpolate`: look the identifier up in the resolved-values map, then in
the raw store under `prefix + key`, then under the bare key; when all
fail, return the placeholder text itself. -/
def interpRepl (r : Resolver) (values : List (String × String)) (key : String) : String :=
  match lookupA values key with
  | some v => v
  | none =>
    match lookupA r.store.Variables (r.pfx ++ key) with
    | some v => v
    | none =>
      match lookupA r.store.Variables key with
      | some v => v
      | none => ⟨placeholder key.data⟩

/-- Body extraction for one match of the anchored regular expression
`\$\{([^}]+)\}` (as used by `interpolate`), positioned just after a
`"$\x7b"`: the body is the run of non-`'}'` characters and a closing
`'}'` must follow; returns the body and the text after the `'}'`.  (The
regex additionally requires a non-empty body; that is checked at the call
site.) -/
def splitBrace : (rest : List Char) → Option (List Char × {r : List Char // r.length < rest.length})
  | [] => none
  | d :: rest₁ =>
    if d = '}' then some ([], ⟨rest₁, by simp⟩)
    else
      match splitBrace rest₁ with
      | none => none
      | some (body, ⟨r, hr⟩) =>
        some (d :: body, ⟨r, by simp only [List.length_cons]; omega⟩)

/-- One attempted match of the interpolation regex positioned just after
a `'$'`: requires an opening `'{'` and delegates to `splitBrace`. -/
def findRef : (cs : List Char) → Option (List Char × {r : List Char // r.length < cs.length})
  | [] => none
  | d :: rest =>
    if d = '{' then
      match splitBrace rest with
      | none => none
      | some (body, ⟨r, hr⟩) => some (body, ⟨r, by simp only [List.length_cons]; omega⟩)
    else none

/-- `regexp.ReplaceAllStringFunc` for the interpolation regex (a `'$'`,
an opening brace, one or more non-closing-brace characters, a closing
brace): leftmost matches are replaced by `repl body`, everything else is
copied verbatim. -/
def interpolateCore (repl : String → String) : (l : List Char) → List Char
  | [] => []
  | c :: cs =>
    if c = '$' then
      match findRef cs with
      | some (body, ⟨rest₂, hb₂⟩) =>
        if body.isEmpty then c :: interpolateCore repl cs
        else (repl ⟨body⟩).data ++ interpolateCore repl rest₂
      | none => c :: interpolateCore repl cs
    else c :: interpolateCore repl cs
termination_by l => l.length
decreasing_by
  all_goals try simp only [List.length_cons] at *
  all_goals omega

/-- `Resolver.interpolate`. -/
def Resolver.interpolate (r : Resolver) (template : String) (values : List (String × String)) : String :=
  ⟨interpolateCore (interpRepl r values) template.data⟩

/-- Step 4 of `Resolve`: evaluate every computed template against the
fixed interpolation context and write the result over any same-named
entry, with source `"computed"` and empty key. -/
def resolveVars2 (r : Resolver) : List (String × ResolvedVar) :=
  r.project.Computed.foldl
    (fun acc kv =>
      setKey acc kv.1 ⟨kv.1, r.interpolate kv.2 (resolveValueMap r), "computed", ""⟩)
    (resolveVars r)

/-- `Resolver.Resolve`: the assembled pipeline, returning the map values
sorted ascending by environment-variable name (the Go `sort.Slice` on a
map with pairwise-distinct names; insertion sort is the deterministic
stand-in). -/
def Resolver.Resolve (r : Resolver) : List ResolvedVar :=
  List.insertionSort (fun a b => a.EnvName ≤ b.EnvName) ((resolveVars2 r).map Prod.snd)

/-- `Resolver.MissingVars`: every include pattern free of the glob
metacharacters `*?[` whose `prefix + pattern` key is absent from the
store, first-occurrence de-duplicated, then sorted (`sort.Strings`). -/
def Resolver.MissingVars (r : Resolver) : List String :=
  List.insertionSort (fun a b => a ≤ b)
    (r.project.Include.foldl
      (fun acc pat =>
        if pat.data.any (fun c => c = '*' ∨ c = '?' ∨ c = '[') then acc
        else if (lookupA r.store.Variables (r.pfx ++ pat)).isSome then acc
        else if acc.contains pat then acc
        else acc ++ [pat])
      [])

/-! ## Encryption codec (internal/crypto) -/

/-- The error cases of `crypto.Decrypt` (and `Encrypt`). -/
inductive CryptoError where
  | passwordRequired
  | tooShort
  | missingMagic
  | unsupportedVersion (v : Nat)
  | authenticationFailed
deriving DecidableEq, Repr

/-- `crypto.MagicBytes = []byte("VARNISH\x00")`, bytes as numbers. -/
def MagicBytes : List Nat := [86, 65, 82, 78, 73, 83, 72, 0]

/-- `crypto.Version`. -/
def encVersion : Nat := 1

/-- `crypto.saltSize`. -/
def saltSize : Nat := 16

/-- `crypto.nonceSize`. -/
def nonceSize : Nat := 12

/-- The cryptographic primitives used by `Encrypt`/`Decrypt`, abstracted:
`deriveKey` is Argon2id over `(password, salt)`, `gcmSeal`/`gcmOpen` are
AES-256-GCM `Seal`/`Open` over `(key, nonce, payload)`.  The framing code
below is verified for any choice of primitives; AEAD correctness is taken
as a hypothesis where needed (it is the contract of the Go library). -/
structure CipherSuite where
  deriveKey : String → List Nat → List Nat
  gcmSeal : List Nat → List Nat → List Nat → List Nat
  gcmOpen : List Nat → List Nat → List Nat → Option (List Nat)

/-- `crypto.IsEncrypted`: the data is at least as long as the magic marker
and starts with it. -/
def IsEncrypted (data : List Nat) : Bool :=
  decide (MagicBytes.length ≤ data.length) && decide (data.take MagicBytes.length = MagicBytes)

/-- `crypto.Encrypt`: the two `rand.Read` outputs (salt and nonce) are
passed in as parameters; the output is
magic | version byte | salt | nonce | sealed ciphertext. -/
def Encrypt (cs : CipherSuite) (salt nonce plaintext : List Nat) (password : String) : List Nat :=
  let key := cs.deriveKey password salt
  let ciphertext := cs.gcmSeal key nonce plaintext
  MagicBytes ++ [encVersion] ++ salt ++ nonce ++ ciphertext

/-- `crypto.Decrypt`: empty-password check, minimum-length check, magic
check, version check, then header splitting and authenticated opening. -/
def Decrypt (cs : CipherSuite) (data : List Nat) (password : String) :
    Except CryptoError (List Nat) :=
  if password = "" then .error .passwordRequired
  else if data.length < MagicBytes.length + 1 + saltSize + nonceSize + 16 then .error .tooShort
  else if ¬ IsEncrypted data then .error .missingMagic
  else
    let version := (data.drop MagicBytes.length).headD 0
    if version ≠ encVersion then .error (.unsupportedVersion version)
    else
      let salt := (data.drop (MagicBytes.length + 1)).take saltSize
      let nonce := (data.drop (MagicBytes.length + 1 + saltSize)).take nonceSize
      let ciphertext := data.drop (MagicBytes.length + 1 + saltSize + nonceSize)
      let key := cs.deriveKey password salt
      match cs.gcmOpen key nonce ciphertext with
      | some plaintext => .ok plaintext
      | none => .error .authenticationFailed

/-! ## Store loading (internal/store.Load) and project configs
(internal/domain/project.go) -/

/-- The outcome of `os.ReadFile` as seen by `store.Load`: the file is
absent, or present with some contents. -/
inductive FileRead where
  | absent
  | present (data : List Nat)

/-- `store.Load`: a missing file yields `store.New()` and no error; an
existing file is handed to `parseStoreData` (YAML decoding plus optional
decryption — an external library boundary, abstracted as the `parse`
argument). -/
def Store.Load (f : FileRead) (parse : List Nat → Except String Store) : Except String Store :=
  match f with
  | .absent => .ok Store.New
  | .present data => parse data

/-- `domain.ProjectConfig` with Go nil-ability made explicit: a collection
field is `none` exactly when the Go field is nil (as after decoding a
document that omits it). -/
structure ProjectConfig where
  Version : Nat
  Project : String
  Include : Option (List String)
  Overrides : Option (List (String × String))
  Mappings : Option (List (String × String))
  Computed : Option (List (String × String))
deriving DecidableEq, Repr

/-- `domain.NewProjectConfig`: version 1 and all four collections
initialized (empty but present). -/
def NewProjectConfig : ProjectConfig :=
  { Version := 1, Project := "", Include := some [], Overrides := some [],
    Mappings := some [], Computed := some [] }

/-- The normalization `domain.LoadProjectConfigFrom` applies to a
successfully decoded document: each of the three maps is replaced by an
empty map when nil.  (File reading and YAML decoding are external; `doc`
is the decoded document.) -/
def LoadProjectConfigFrom (doc : ProjectConfig) : ProjectConfig :=
  { doc with
    Overrides := some (doc.Overrides.getD [])
    Mappings := some (doc.Mappings.getD [])
    Computed := some (doc.Computed.getD []) }


/-! ## Basic lemmas about the association-list map model -/

theorem lookupA_setKey_self {α : Type} (m : List (String × α)) (k : String) (v : α) :
    lookupA (setKey m k v) k = some v := by
  induction m with
  | nil => simp [setKey, lookupA]
  | cons kv rest ih =>
    obtain ⟨k₁, v₁⟩ := kv
    by_cases h : k₁ = k
    · simp [setKey, h, lookupA]
    · simp [setKey, h, lookupA, ih]

theorem lookupA_setKey_ne {α : Type} (m : List (String × α)) (k k₂ : String) (v : α)
    (h : k₂ ≠ k) : lookupA (setKey m k v) k₂ = lookupA m k₂ := by
  have hne : ¬ k = k₂ := fun hh => h hh.symm
  induction m with
  | nil => simp [setKey, lookupA, hne]
  | cons kv rest ih =>
    obtain ⟨k₁, v₁⟩ := kv
    by_cases h₁ : k₁ = k
    · subst h₁
      simp [setKey, lookupA, hne]
    · simp only [setKey, if_neg h₁, lookupA]
      by_cases h₂ : k₁ = k₂ <;> simp [h₂, ih]

theorem fst_mem_setKey {α : Type} (m : List (String × α)) (k : String) (v : α) (x : String) :
    x ∈ (setKey m k v).map Prod.fst ↔ x ∈ m.map Prod.fst ∨ x = k := by
  induction m with
  | nil => simp [setKey]
  | cons kv rest ih =>
    obtain ⟨k₁, v₁⟩ := kv
    by_cases h : k₁ = k
    · subst h
      simp [setKey]
      tauto
    · simp [setKey, h, ih]
      tauto

theorem nodup_setKey {α : Type} (m : List (String × α)) (k : String) (v : α)
    (h : (m.map Prod.fst).Nodup) : ((setKey m k v).map Prod.fst).Nodup := by
  induction m with
  | nil => simp [setKey]
  | cons kv rest ih =>
    obtain ⟨k₁, v₁⟩ := kv
    simp only [List.map_cons, List.nodup_cons] at h
    by_cases hk : k₁ = k
    · subst hk
      simpa [setKey] using h
    · simp only [setKey, if_neg hk, List.map_cons, List.nodup_cons]
      refine ⟨?_, ih h.2⟩
      intro hmem
      rcases (fst_mem_setKey rest k v k₁).mp hmem with h₂ | h₂
      · exact h.1 h₂
      · exact hk h₂

theorem lookupA_eq_none {α : Type} (m : List (String × α)) (k : String)
    (h : k ∉ m.map Prod.fst) : lookupA m k = none := by
  induction m with
  | nil => simp [lookupA]
  | cons kv rest ih =>
    obtain ⟨k₁, v₁⟩ := kv
    simp only [List.map_cons, List.mem_cons] at h
    push_neg at h
    have hne : ¬ k₁ = k := fun he => h.1 he.symm
    simp [lookupA, hne, ih h.2]

theorem lookupA_mem {α : Type} (m : List (String × α)) (k : String) (v : α)
    (h : lookupA m k = some v) : (k, v) ∈ m := by
  induction m with
  | nil => simp [lookupA] at h
  | cons kv rest ih =>
    obtain ⟨k₁, v₁⟩ := kv
    by_cases h₁ : k₁ = k
    · subst h₁
      simp [lookupA] at h
      simp [h]
    · simp only [lookupA, if_neg h₁] at h
      exact List.mem_cons_of_mem _ (ih h)

/-! ## C6: collections present after construction and loading -/

/-- C6: the claim as stated is false: a decoded project document that
omits `include` still has a nil include list after
`LoadProjectConfigFrom`, because only the three maps are initialized. -/
theorem C6_counterexample :
    ((LoadProjectConfigFrom
        { Version := 1, Project := "demo", Include := none, Overrides := none,
          Mappings := none, Computed := none }).Include).isSome = false := by
  rfl

/-- C6 (amended): `NewProjectConfig` has all four collections present, and
`LoadProjectConfigFrom` guarantees the three maps (`overrides`,
`mappings`, `computed`) are present while passing the decoded `include`
list through unchanged — a document omitting `include` therefore yields a
nil include list. -/
theorem C6_amended :
    (NewProjectConfig.Include.isSome ∧ NewProjectConfig.Overrides.isSome ∧
      NewProjectConfig.Mappings.isSome ∧ NewProjectConfig.Computed.isSome) ∧
    ∀ doc : ProjectConfig,
      (LoadProjectConfigFrom doc).Overrides.isSome ∧
      (LoadProjectConfigFrom doc).Mappings.isSome ∧
      (LoadProjectConfigFrom doc).Computed.isSome ∧
      (LoadProjectConfigFrom doc).Include = doc.Include := by
  refine ⟨by simp [NewProjectConfig], ?_⟩
  intro doc
  simp [LoadProjectConfigFrom]

/-! ## C8: loading a missing store file -/

/-- C8: when the store file does not exist, `Load` succeeds and returns
exactly `New()`: version 1, empty variables map, encrypted flag unset. -/
theorem C8_load_absent :
    ∀ parse : List Nat → Except String Store,
      Store.Load .absent parse = .ok Store.New ∧
      Store.New = { Version := 1, Variables := [], encrypted := false } :=
  fun _ => ⟨rfl, rfl⟩

/-! ## C9: empty password rejected before any structural check -/

/-- C9: `Decrypt` with the empty password fails with the password-required
error for every input, of any shape — the password check precedes the
length, magic and version checks. -/
theorem C9_empty_password :
    ∀ (cs : CipherSuite) (data : List Nat),
      Decrypt cs data "" = .error .passwordRequired :=
  fun _ _ => rfl

/-! ## C10: total matching with literal fallback on malformed patterns -/

/-- C10: on the unterminated character class `"[a"`, the embedded
`filepath.Match` reports a bad pattern for every key, and `matchPattern`
falls back to exact string equality of pattern and key. -/
theorem C10_bad_pattern_fallback :
    ∀ key : String,
      goMatch (subDotL "[a".data) (subDotL key.data) = .error () ∧
      matchPattern "[a" key = ("[a" == key) := by
  intro key
  have hbad : ∀ name : List Char, goMatch ['[', 'a'] name = .error () := by
    intro name
    have hchunk : matchChunkGo ['[', 'a'] name false = .error () := by
      simp [matchChunkGo, matchRanges, getEsc]
    simp [goMatch, scanChunkCore, hchunk]
  have hsub : subDotL "[a".data = ['[', 'a'] := by
    simp [subDotL, subDot]
  refine ⟨hsub ▸ hbad _, ?_⟩
  simp [matchPattern, hsub, hbad]

/-! ## C4: the resolution-precedence example -/

/-- C4: the claim as stated is false at its own input: no resolved
variable is named `DATABASE_HOST`, because the default name transform of
the logical key `db.host` is `DB_HOST`. -/
theorem C4_counterexample :
    (Resolver.Resolve
        ⟨{ Version := 1, Variables := [("myapp.db.host", "a")], encrypted := false },
         { Version := 1, Project := "myapp", Include := ["db.*"], Overrides := [("db.host", "b")],
           Mappings := [], Computed := [] }⟩).all
      (fun v => v.EnvName != "DATABASE_HOST") = true := by
  have hm : matchPattern "myapp.db.*" "myapp.db.host" = true := by
    simp [matchPattern, subDotL, subDot, goMatch, scanChunkCore, matchChunkGo, starSearch, patCheck]
  have h1 : resolveStep1
      ⟨{ Version := 1, Variables := [("myapp.db.host", "a")], encrypted := false },
       { Version := 1, Project := "myapp", Include := ["db.*"], Overrides := [("db.host", "b")],
         Mappings := [], Computed := [] }⟩ = [("db.host", ("a", "store"))] := by
    simp [resolveStep1, Resolver.pfx, hm, logicalKey, setKey]
  have h2 : resolveMerge
      ⟨{ Version := 1, Variables := [("myapp.db.host", "a")], encrypted := false },
       { Version := 1, Project := "myapp", Include := ["db.*"], Overrides := [("db.host", "b")],
         Mappings := [], Computed := [] }⟩ = [("db.host", ("b", "override"))] := by
    simp only [resolveMerge, h1]
    simp [setKey]
  simp [Resolver.Resolve, resolveVars2, resolveVars, h2, Resolver.keyToEnvName, lookupA,
    defaultEnvName, setKey, List.insertionSort]

/-- C4 (amended): the example instance resolves to exactly one variable,
named by the default transform `db.host -> DB_HOST`, with the override
value `"b"` and source `"override"`. -/
theorem C4_amended :
    Resolver.Resolve
        ⟨{ Version := 1, Variables := [("myapp.db.host", "a")], encrypted := false },
         { Version := 1, Project := "myapp", Include := ["db.*"], Overrides := [("db.host", "b")],
           Mappings := [], Computed := [] }⟩ =
      [{ EnvName := "DB_HOST", Value := "b", Source := "override", Key := "db.host" }] := by
  have hm : matchPattern "myapp.db.*" "myapp.db.host" = true := by
    simp [matchPattern, subDotL, subDot, goMatch, scanChunkCore, matchChunkGo, starSearch, patCheck]
  have h1 : resolveStep1
      ⟨{ Version := 1, Variables := [("myapp.db.host", "a")], encrypted := false },
       { Version := 1, Project := "myapp", Include := ["db.*"], Overrides := [("db.host", "b")],
         Mappings := [], Computed := [] }⟩ = [("db.host", ("a", "store"))] := by
    simp [resolveStep1, Resolver.pfx, hm, logicalKey, setKey]
  have h2 : resolveMerge
      ⟨{ Version := 1, Variables := [("myapp.db.host", "a")], encrypted := false },
       { Version := 1, Project := "myapp", Include := ["db.*"], Overrides := [("db.host", "b")],
         Mappings := [], Computed := [] }⟩ = [("db.host", ("b", "override"))] := by
    simp only [resolveMerge, h1]
    simp [setKey]
  simp [Resolver.Resolve, resolveVars2, resolveVars, h2, Resolver.keyToEnvName, lookupA,
    defaultEnvName, setKey, List.insertionSort]

/-! ## C7: encrypted round trip -/

/-- C7: for every plaintext, non-empty password, 16-byte salt and 12-byte
nonce, and any cipher suite whose AEAD opens what it seals (with at least
a 16-byte tag), `Decrypt` inverts `Encrypt`. -/
theorem C7_roundtrip (cs : CipherSuite) (salt nonce plaintext : List Nat) (password : String)
    (hpw : password ≠ "")
    (hsalt : salt.length = 16)
    (hnonce : nonce.length = 12)
    (htag : 16 ≤ (cs.gcmSeal (cs.deriveKey password salt) nonce plaintext).length)
    (hopen : cs.gcmOpen (cs.deriveKey password salt) nonce
        (cs.gcmSeal (cs.deriveKey password salt) nonce plaintext) = some plaintext) :
    Decrypt cs (Encrypt cs salt nonce plaintext password) password = .ok plaintext := by
  set C := cs.gcmSeal (cs.deriveKey password salt) nonce plaintext with hC
  have hdata : Encrypt cs salt nonce plaintext password =
      MagicBytes ++ ([encVersion] ++ (salt ++ (nonce ++ C))) := by
    simp [Encrypt, List.append_assoc]
  have hsalt' : salt.length = saltSize := hsalt
  have hnonce' : nonce.length = nonceSize := hnonce
  have hA : (MagicBytes ++ [encVersion]).length = MagicBytes.length + 1 := by simp
  have hB : ((MagicBytes ++ [encVersion]) ++ salt).length =
      MagicBytes.length + 1 + saltSize := by simp [hsalt', MagicBytes, saltSize]
  have hBc : (((MagicBytes ++ [encVersion]) ++ salt) ++ nonce).length =
      MagicBytes.length + 1 + saltSize + nonceSize := by
    simp [hsalt', hnonce', MagicBytes, saltSize, nonceSize]
  have hlen : (MagicBytes ++ ([encVersion] ++ (salt ++ (nonce ++ C)))).length = 37 + C.length := by
    simp [MagicBytes, hsalt, hnonce]
    omega
  have hmin : ¬ (MagicBytes ++ ([encVersion] ++ (salt ++ (nonce ++ C)))).length <
      MagicBytes.length + 1 + saltSize + nonceSize + 16 := by
    rw [hlen]
    simp only [MagicBytes, saltSize, nonceSize]
    simp
    omega
  have henc : IsEncrypted (MagicBytes ++ ([encVersion] ++ (salt ++ (nonce ++ C)))) = true := by
    simp [IsEncrypted, List.take_left, MagicBytes]
  have hver : ((MagicBytes ++ ([encVersion] ++ (salt ++ (nonce ++ C)))).drop
      MagicBytes.length).headD 0 = encVersion := by
    rw [List.drop_left]
    rfl
  have hsep : MagicBytes ++ ([encVersion] ++ (salt ++ (nonce ++ C))) =
      (MagicBytes ++ [encVersion]) ++ (salt ++ (nonce ++ C)) := by
    simp [List.append_assoc]
  have hsep₂ : MagicBytes ++ ([encVersion] ++ (salt ++ (nonce ++ C))) =
      ((MagicBytes ++ [encVersion]) ++ salt) ++ (nonce ++ C) := by
    simp [List.append_assoc]
  have hsep₃ : MagicBytes ++ ([encVersion] ++ (salt ++ (nonce ++ C))) =
      (((MagicBytes ++ [encVersion]) ++ salt) ++ nonce) ++ C := by
    simp [List.append_assoc]
  have hsaltEq : ((MagicBytes ++ ([encVersion] ++ (salt ++ (nonce ++ C)))).drop
      (MagicBytes.length + 1)).take saltSize = salt := by
    rw [hsep, List.drop_left' hA, List.take_left' hsalt']
  have hnonceEq : ((MagicBytes ++ ([encVersion] ++ (salt ++ (nonce ++ C)))).drop
      (MagicBytes.length + 1 + saltSize)).take nonceSize = nonce := by
    rw [hsep₂, List.drop_left' hB, List.take_left' hnonce']
  have hctEq : (MagicBytes ++ ([encVersion] ++ (salt ++ (nonce ++ C)))).drop
      (MagicBytes.length + 1 + saltSize + nonceSize) = C := by
    rw [hsep₃, List.drop_left' hBc]
  rw [hdata]
  simp only [Decrypt, if_neg hpw, if_neg hmin, henc]
  simp only [not_true_eq_false, if_false, hver, hsaltEq, hnonceEq, hctEq]
  simp only [encVersion, ne_eq, not_true_eq_false, if_false]
  simp [hopen]

/-- C7 witness: the round-trip theorem applied to a concrete toy cipher
suite and concrete inputs. -/
theorem C7_roundtrip_witness :
    Decrypt
      { deriveKey := fun _ _ => [], gcmSeal := fun _ _ pt => pt ++ List.replicate 16 0,
        gcmOpen := fun _ _ ct => some (ct.take (ct.length - 16)) }
      (Encrypt
        { deriveKey := fun _ _ => [], gcmSeal := fun _ _ pt => pt ++ List.replicate 16 0,
          gcmOpen := fun _ _ ct => some (ct.take (ct.length - 16)) }
        (List.replicate 16 0) (List.replicate 12 0) [1, 2, 3] "pw")
      "pw" = .ok [1, 2, 3] :=
  C7_roundtrip _ _ _ _ _ (by decide) (by decide) (by decide) (by decide) (by decide)

theorem missing_fold_mem (store : List (String × String)) (pfx : String)
    (l : List String) (acc : List String) (x : String) :
    x ∈ l.foldl
        (fun acc pat =>
          if pat.data.any (fun c => c = '*' ∨ c = '?' ∨ c = '[') then acc
          else if (lookupA store (pfx ++ pat)).isSome then acc
          else if acc.contains pat then acc
          else acc ++ [pat])
        acc ↔
      x ∈ acc ∨
        (x ∈ l ∧ x.data.any (fun c => c = '*' ∨ c = '?' ∨ c = '[') = false ∧
          lookupA store (pfx ++ x) = none) := by
  induction l generalizing acc with
  | nil => simp
  | cons pat rest ih =>
    simp only [List.foldl_cons, List.mem_cons]
    by_cases h₁ : pat.data.any (fun c => c = '*' ∨ c = '?' ∨ c = '[') = true
    · rw [if_pos h₁, ih]
      constructor
      · tauto
      · rintro (hx | ⟨(rfl | hx), h₂, h₃⟩)
        · tauto
        · rw [h₁] at h₂
          cases h₂
        · tauto
    · rw [if_neg h₁]
      by_cases h₂ : (lookupA store (pfx ++ pat)).isSome = true
      · rw [if_pos h₂, ih]
        constructor
        · tauto
        · rintro (hx | ⟨(rfl | hx), h₃, h₄⟩)
          · tauto
          · rw [h₄] at h₂
            cases h₂
          · tauto
      · rw [if_neg h₂]
        by_cases h₃ : acc.contains pat = true
        · rw [if_pos h₃, ih]
          have hpat : pat ∈ acc := by
            simpa [List.contains] using h₃
          constructor
          · tauto
          · rintro (hx | ⟨(rfl | hx), h₄, h₅⟩)
            · tauto
            · exact Or.inl hpat
            · tauto
        · rw [if_neg h₃, ih]
          simp only [List.mem_append, List.mem_singleton]
          constructor
          · rintro (⟨hx | rfl⟩ | hx)
            · tauto
            · refine Or.inr ⟨Or.inl rfl, ?_, ?_⟩
              · simpa using h₁
              · rw [← Option.not_isSome_iff_eq_none]
                simpa using h₂
            · tauto
          · rintro (hx | ⟨(rfl | hx), h₄, h₅⟩)
            · tauto
            · tauto
            · tauto

theorem missing_fold_nodup (store : List (String × String)) (pfx : String)
    (l : List String) (acc : List String) (hacc : acc.Nodup) :
    (l.foldl
        (fun acc pat =>
          if pat.data.any (fun c => c = '*' ∨ c = '?' ∨ c = '[') then acc
          else if (lookupA store (pfx ++ pat)).isSome then acc
          else if acc.contains pat then acc
          else acc ++ [pat])
        acc).Nodup := by
  induction l generalizing acc with
  | nil => simpa
  | cons pat rest ih =>
    simp only [List.foldl_cons]
    split
    · exact ih acc hacc
    · split
      · exact ih acc hacc
      · split
        · exact ih acc hacc
        · refine ih _ ?_
          rename_i h₃
          have hpat : pat ∉ acc := by
            intro hmem
            exact h₃ (by simpa [List.contains] using hmem)
          simp [List.nodup_append, hacc, hpat]

/-- C5: `MissingVars` is characterized exactly: membership holds for
precisely the include patterns free of glob metacharacters whose
prefixed key is absent from the store; the result has no duplicates and
is sorted; and the concrete example of the specification holds. -/
theorem C5_missing_vars :
    (∀ (r : Resolver) (x : String),
        x ∈ r.MissingVars ↔
          x ∈ r.project.Include ∧
            x.data.any (fun c => c = '*' ∨ c = '?' ∨ c = '[') = false ∧
            lookupA r.store.Variables (r.pfx ++ x) = none) ∧
    (∀ r : Resolver, r.MissingVars.Nodup) ∧
    (∀ r : Resolver, List.Sorted (· ≤ ·) r.MissingVars) ∧
    Resolver.MissingVars
        ⟨{ Version := 1, Variables := [("myapp.db.host", "a")], encrypted := false },
         { Version := 1, Project := "myapp", Include := ["db.host", "db.port"], Overrides := [],
           Mappings := [], Computed := [] }⟩ = ["db.port"] := by
  refine ⟨?_, ?_, ?_, by decide⟩
  · intro r x
    rw [Resolver.MissingVars, (List.perm_insertionSort _ _).mem_iff, missing_fold_mem]
    simp
  · intro r
    rw [Resolver.MissingVars]
    exact (List.perm_insertionSort _ _).nodup_iff.mpr (missing_fold_nodup _ _ _ _ List.nodup_nil)
  · intro r
    exact List.sorted_insertionSort _ _

theorem foldl_setKey_skip {β α : Type} (κ : String → String) (f : String × β → α)
    (l : List (String × β)) (acc : List (String × α)) (N : String)
    (h : ∀ kv ∈ l, κ kv.1 ≠ N) :
    lookupA (l.foldl (fun acc kv => setKey acc (κ kv.1) (f kv)) acc) N = lookupA acc N := by
  induction l generalizing acc with
  | nil => rfl
  | cons kv rest ih =>
    simp only [List.foldl_cons]
    rw [ih _ (fun kv hm => h kv (List.mem_cons_of_mem _ hm))]
    exact lookupA_setKey_ne _ _ _ _ (fun he => h kv (List.mem_cons_self _ _) he.symm)

theorem foldl_setKey_lookup {β α : Type} (κ : String → String) (f : String × β → α)
    (l : List (String × β)) (acc : List (String × α)) (k : String) (b : β)
    (hmem : (k, b) ∈ l) (hnd : (l.map Prod.fst).Nodup)
    (hinj : ∀ kv ∈ l, kv.1 ≠ k → κ kv.1 ≠ κ k) :
    lookupA (l.foldl (fun acc kv => setKey acc (κ kv.1) (f kv)) acc) (κ k) = some (f (k, b)) := by
  induction l generalizing acc with
  | nil => simp at hmem
  | cons kv rest ih =>
    obtain ⟨k₁, b₁⟩ := kv
    simp only [List.map_cons, List.nodup_cons] at hnd
    by_cases hk : k₁ = k
    · subst hk
      have hb : b₁ = b := by
        rcases List.mem_cons.mp hmem with he | hm
        · exact (congrArg Prod.snd he).symm
        · exact absurd (List.mem_map_of_mem Prod.fst hm) hnd.1
      subst hb
      simp only [List.foldl_cons]
      rw [foldl_setKey_skip]
      · exact lookupA_setKey_self _ _ _
      · intro kv hm
        have hne : kv.1 ≠ k₁ := by
          intro he
          exact hnd.1 (he ▸ List.mem_map_of_mem Prod.fst hm)
        exact hinj kv (List.mem_cons_of_mem _ hm) hne
    · have hm : (k, b) ∈ rest := by
        rcases List.mem_cons.mp hmem with he | hm
        · exact absurd (congrArg Prod.fst he).symm hk
        · exact hm
      simp only [List.foldl_cons]
      exact ih _ hm hnd.2 (fun kv hmm hne => hinj kv (List.mem_cons_of_mem _ hmm) hne)

theorem foldl_setKey_nodup {β α : Type} (κ : String → String) (f : String × β → α)
    (l : List (String × β)) (acc : List (String × α))
    (hacc : (acc.map Prod.fst).Nodup) :
    ((l.foldl (fun acc kv => setKey acc (κ kv.1) (f kv)) acc).map Prod.fst).Nodup := by
  induction l generalizing acc with
  | nil => exact hacc
  | cons kv rest ih =>
    simp only [List.foldl_cons]
    exact ih _ (nodup_setKey _ _ _ hacc)

theorem foldl_ite_setKey_nodup {β α : Type} (cond : String × β → Bool)
    (κ : String × β → String) (f : String × β → α)
    (l : List (String × β)) (acc : List (String × α))
    (hacc : (acc.map Prod.fst).Nodup) :
    ((l.foldl (fun acc kv => if cond kv then setKey acc (κ kv) (f kv) else acc) acc).map
      Prod.fst).Nodup := by
  induction l generalizing acc with
  | nil => exact hacc
  | cons kv rest ih =>
    simp only [List.foldl_cons]
    split
    · exact ih _ (nodup_setKey _ _ _ hacc)
    · exact ih _ hacc

theorem step1_keys_nodup (r : Resolver) : ((resolveStep1 r).map Prod.fst).Nodup := by
  rw [resolveStep1]
  suffices h : ∀ (pats : List String) (acc : List (String × String × String)),
      (acc.map Prod.fst).Nodup →
      ((pats.foldl
          (fun acc pat =>
            r.store.Variables.foldl
              (fun acc kv =>
                if matchPattern (r.pfx ++ pat) kv.1 then
                  setKey acc (logicalKey r.pfx kv.1) (kv.2, "store")
                else acc)
              acc)
          acc).map Prod.fst).Nodup by
    exact h _ _ (by simp)
  intro pats
  induction pats with
  | nil => exact fun acc h => h
  | cons p ps ih =>
    intro acc h
    simp only [List.foldl_cons]
    exact ih _ (foldl_ite_setKey_nodup
      (fun kv => matchPattern (r.pfx ++ p) kv.1)
      (fun kv => logicalKey r.pfx kv.1)
      (fun kv => (kv.2, "store")) _ _ h)

theorem merge_keys_nodup (r : Resolver) : ((resolveMerge r).map Prod.fst).Nodup := by
  rw [resolveMerge]
  exact foldl_setKey_nodup (fun x => x) (fun kv => (kv.2, "override")) _ _ (step1_keys_nodup r)

/-- C1: the claim as stated is false: with overrides `a -> "1"` and
`b -> "2"` both mapped to the output name `X`, the override entry for `a`
is overwritten in the name-keyed map by the entry for `b`, although no
computed entry is involved — the output contains no variable with the
value `"1"` at all. -/
theorem C1_counterexample :
    (("a", "1") ∈
        (Config.mk 1 "" [] [("a", "1"), ("b", "2")] [("a", "X"), ("b", "X")] []).Overrides ∧
      (Config.mk 1 "" [] [("a", "1"), ("b", "2")] [("a", "X"), ("b", "X")] []).Computed = []) ∧
    (Resolver.Resolve
        ⟨{ Version := 1, Variables := [], encrypted := false },
         Config.mk 1 "" [] [("a", "1"), ("b", "2")] [("a", "X"), ("b", "X")] []⟩).all
      (fun v => v.Value != "1") = true := by
  exact ⟨by decide, by decide⟩

/-- C1 (amended): every override pair lands in the merge map with source
`"override"`, replacing any store-sourced entry; the corresponding
`ResolvedVar` appears in the `Resolve` output provided no other logical
key of the merge map is mapped to the same output variable name and no
computed entry uses that name. -/
theorem C1_amended (r : Resolver) (k v : String)
    (hov : (k, v) ∈ r.project.Overrides)
    (hnd : (r.project.Overrides.map Prod.fst).Nodup)
    (hcoll : ∀ k₂ ∈ (resolveMerge r).map Prod.fst, k₂ ≠ k →
      r.keyToEnvName k₂ ≠ r.keyToEnvName k)
    (hcomp : ∀ kv ∈ r.project.Computed, kv.1 ≠ r.keyToEnvName k) :
    lookupA (resolveMerge r) k = some (v, "override") ∧
    ResolvedVar.mk (r.keyToEnvName k) v "override" k ∈ r.Resolve := by
  have hmerge : lookupA (resolveMerge r) k = some (v, "override") := by
    rw [resolveMerge]
    exact foldl_setKey_lookup (fun x => x) (fun kv => (kv.2, "override")) _ _ k v hov hnd
      (fun kv _ hne => hne)
  refine ⟨hmerge, ?_⟩
  have hmem : (k, (v, "override")) ∈ resolveMerge r := lookupA_mem _ _ _ hmerge
  have hvars : lookupA (resolveVars r) (r.keyToEnvName k) =
      some (ResolvedVar.mk (r.keyToEnvName k) v "override" k) := by
    rw [resolveVars]
    exact foldl_setKey_lookup r.keyToEnvName
      (fun kv => ResolvedVar.mk (r.keyToEnvName kv.1) kv.2.1 kv.2.2 kv.1) _ _ k (v, "override")
      hmem (merge_keys_nodup r)
      (fun kv hm hne => hcoll kv.1 (List.mem_map_of_mem Prod.fst hm) hne)
  have hvars2 : lookupA (resolveVars2 r) (r.keyToEnvName k) =
      some (ResolvedVar.mk (r.keyToEnvName k) v "override" k) := by
    rw [resolveVars2]
    rw [foldl_setKey_skip (fun x => x)
      (fun kv => ResolvedVar.mk kv.1 (r.interpolate kv.2 (resolveValueMap r)) "computed" "")
      _ _ _ hcomp]
    exact hvars
  have hmem2 : (r.keyToEnvName k, ResolvedVar.mk (r.keyToEnvName k) v "override" k) ∈
      resolveVars2 r := lookupA_mem _ _ _ hvars2
  rw [Resolver.Resolve]
  rw [(List.perm_insertionSort _ _).mem_iff]
  exact List.mem_map_of_mem Prod.snd hmem2

/-- C1 witness: the amended theorem applied to a concrete resolver with a
single override and no name collisions. -/
theorem C1_amended_witness :
    lookupA
        (resolveMerge
          ⟨{ Version := 1, Variables := [], encrypted := false },
           Config.mk 1 "" [] [("db.host", "b")] [] []⟩)
        "db.host" = some ("b", "override") ∧
    ResolvedVar.mk
        (Resolver.keyToEnvName
          ⟨{ Version := 1, Variables := [], encrypted := false },
           Config.mk 1 "" [] [("db.host", "b")] [] []⟩ "db.host")
        "b" "override" "db.host" ∈
      Resolver.Resolve
        ⟨{ Version := 1, Variables := [], encrypted := false },
         Config.mk 1 "" [] [("db.host", "b")] [] []⟩ :=
  C1_amended _ "db.host" "b" (by decide) (by decide) (by decide) (by decide)

theorem splitBrace_append (ident rest : List Char) (h : '}' ∉ ident) :
    splitBrace (ident ++ '}' :: rest) =
      some (ident, ⟨rest, by simp [List.length_append]; omega⟩) := by
  induction ident with
  | nil => simp [splitBrace]
  | cons c cs ih =>
    have hc : c ≠ '}' := fun he => h (he ▸ List.mem_cons_self _ _)
    have hcs : '}' ∉ cs := fun hm => h (List.mem_cons_of_mem _ hm)
    simp [splitBrace, hc, ih hcs]

theorem findRef_placeholder (ident rest : List Char) (h : '}' ∉ ident) :
    findRef ('{' :: (ident ++ '}' :: rest)) =
      some (ident, ⟨rest, by simp [List.length_append]; omega⟩) := by
  simp [findRef, splitBrace_append _ _ h]

theorem interp_skip (repl : String → String) (c : Char) (cs : List Char) (h : c ≠ '$') :
    interpolateCore repl (c :: cs) = c :: interpolateCore repl cs := by
  rw [interpolateCore]
  simp [h]

theorem interp_pre (repl : String → String) (pre l : List Char) (h : '$' ∉ pre) :
    interpolateCore repl (pre ++ l) = pre ++ interpolateCore repl l := by
  induction pre with
  | nil => simp
  | cons c cs ih =>
    have hc : c ≠ '$' := fun he => h (he ▸ List.mem_cons_self _ _)
    have hcs : '$' ∉ cs := fun hm => h (List.mem_cons_of_mem _ hm)
    rw [List.cons_append, interp_skip _ _ _ hc, ih hcs]
    rfl

theorem interp_placeholder (repl : String → String) (ident rest : List Char)
    (hne : ident ≠ []) (hnb : '}' ∉ ident) :
    interpolateCore repl (placeholder ident ++ rest) =
      (repl ⟨ident⟩).data ++ interpolateCore repl rest := by
  have hsh : placeholder ident ++ rest = '$' :: '{' :: (ident ++ '}' :: rest) := by
    simp [placeholder]
  have hemp : ident.isEmpty = false := by
    cases ident
    · exact absurd rfl hne
    · rfl
  rw [hsh, interpolateCore]
  simp [findRef_placeholder _ _ hnb, hemp]

/-- C2: interpolation of computed templates.  First part: a template with
a placeholder is rewritten by replacing the placeholder with the first
hit of the three-stage lookup — the interpolation context, the store
under `prefix + identifier`, the bare store key — and with the
placeholder text itself when all three miss.  Second part: at the
`Resolve` level, a computed template referencing another computed output
name is left verbatim whenever that name is not also a store/override
logical key, because the interpolation context is built from the merge
map only, before any computed value is evaluated. -/
theorem C2_interpolation :
    (∀ (r : Resolver) (values : List (String × String)) (pre ident post : List Char),
        '$' ∉ pre → ident ≠ [] → '}' ∉ ident →
        interpolateCore (interpRepl r values) (pre ++ (placeholder ident ++ post)) =
          pre ++
            (((lookupA values ⟨ident⟩).getD
                ((lookupA r.store.Variables (r.pfx ++ ⟨ident⟩)).getD
                  ((lookupA r.store.Variables ⟨ident⟩).getD ⟨placeholder ident⟩))).data ++
              interpolateCore (interpRepl r values) post)) ∧
    ∀ (r : Resolver) (n₁ n₂ : String),
      (n₁, (⟨placeholder n₂.data⟩ : String)) ∈ r.project.Computed →
      (r.project.Computed.map Prod.fst).Nodup →
      n₂ ∈ r.project.Computed.map Prod.fst →
      n₂.data ≠ [] → '}' ∉ n₂.data →
      lookupA (resolveValueMap r) n₂ = none →
      lookupA r.store.Variables (r.pfx ++ n₂) = none →
      lookupA r.store.Variables n₂ = none →
      ResolvedVar.mk n₁ ⟨placeholder n₂.data⟩ "computed" "" ∈ r.Resolve := by
  constructor
  · intro r values pre ident post hpre hne hnb
    rw [interp_pre _ _ _ hpre, interp_placeholder _ _ _ hne hnb]
    have hch : interpRepl r values ⟨ident⟩ =
        (lookupA values ⟨ident⟩).getD
          ((lookupA r.store.Variables (r.pfx ++ ⟨ident⟩)).getD
            ((lookupA r.store.Variables ⟨ident⟩).getD ⟨placeholder ident⟩)) := by
      rw [interpRepl]
      rcases lookupA values ⟨ident⟩ with _ | v
      · rcases lookupA r.store.Variables (r.pfx ++ (⟨ident⟩ : String)) with _ | v
        · rcases lookupA r.store.Variables ⟨ident⟩ with _ | v <;> simp
        · simp
      · simp
    rw [hch]
  · intro r n₁ n₂ hmem hnd _hcross hne hnb hctx hs1 hs2
    have hinterp : r.interpolate ⟨placeholder n₂.data⟩ (resolveValueMap r) =
        ⟨placeholder n₂.data⟩ := by
      rw [Resolver.interpolate]
      have hsh : (⟨placeholder n₂.data⟩ : String).data = placeholder n₂.data ++ [] := by
        simp
      rw [hsh, interp_placeholder _ _ _ hne hnb]
      rw [interpRepl]
      have he : (⟨n₂.data⟩ : String) = n₂ := rfl
      rw [he, hctx, hs1, hs2]
      simp [interpolateCore]
    have hv2 : lookupA (resolveVars2 r) n₁ =
        some (ResolvedVar.mk n₁ ⟨placeholder n₂.data⟩ "computed" "") := by
      rw [resolveVars2]
      have h := foldl_setKey_lookup (fun x => x)
        (fun kv => ResolvedVar.mk kv.1 (r.interpolate kv.2 (resolveValueMap r)) "computed" "")
        r.project.Computed (resolveVars r) n₁ ⟨placeholder n₂.data⟩ hmem hnd
        (fun kv _ hne₂ => hne₂)
      dsimp only at h
      rw [hinterp] at h
      exact h
    rw [Resolver.Resolve, (List.perm_insertionSort _ _).mem_iff]
    exact List.mem_map_of_mem Prod.snd (lookupA_mem _ _ _ hv2)

/-- C2 witness: both parts of the interpolation theorem applied at
concrete inputs: a template `x=` followed by a `g` placeholder resolves
through the store fallback, and a computed `A` referencing the computed
output `B` keeps the placeholder verbatim. -/
theorem C2_interpolation_witness :
    interpolateCore
        (interpRepl
          ⟨{ Version := 1, Variables := [("g", "1")], encrypted := false },
           Config.mk 1 "" [] [] [] []⟩ [])
        ("x=".data ++ (placeholder "g".data ++ [])) = "x=1".data ∧
    ResolvedVar.mk "A" ⟨placeholder "B".data⟩ "computed" "" ∈
      Resolver.Resolve
        ⟨{ Version := 1, Variables := [], encrypted := false },
         Config.mk 1 "" [] [] []
           [("A", ⟨placeholder "B".data⟩), ("B", "x")]⟩ := by
  constructor
  · have h := C2_interpolation.1
      ⟨{ Version := 1, Variables := [("g", "1")], encrypted := false },
       Config.mk 1 "" [] [] [] []⟩ [] "x=".data "g".data []
      (by decide) (by decide) (by decide)
    rw [h]
    simp [lookupA, Resolver.pfx, placeholder, interpolateCore]
  · exact C2_interpolation.2
      ⟨{ Version := 1, Variables := [], encrypted := false },
       Config.mk 1 "" [] [] [] [("A", ⟨placeholder "B".data⟩), ("B", "x")]⟩ "A" "B"
      (by decide) (by decide) (by decide) (by decide) (by decide)
      (by decide) (by decide) (by decide)
theorem glob_nil (k : List Char) : globMatch [] k = k.isEmpty := by
  rw [globMatch.eq_def]

theorem glob_star_nil (p : List Char) : globMatch ('*' :: p) [] = globMatch p [] := by
  rw [globMatch.eq_def]
  simp

theorem glob_star_cons (p : List Char) (c : Char) (k : List Char) :
    globMatch ('*' :: p) (c :: k) = (globMatch p (c :: k) || globMatch ('*' :: p) k) := by
  rw [globMatch.eq_def]
  simp

theorem glob_lit_cons (p : List Char) (c : Char) (hc : c ≠ '*') (k : List Char) :
    globMatch (c :: p) k =
      (match k with
       | [] => false
       | c₁ :: k₁ => (c = c₁ && globMatch p k₁)) := by
  rw [globMatch.eq_def]
  simp [hc]

theorem glob_star_one (p : List Char) (k : List Char) :
    globMatch ('*' :: p) k = (globMatch p k || globMatch ('*' :: p) (k.drop 1)) := by
  cases k with
  | nil =>
    simp [glob_star_nil]
  | cons c k₁ =>
    simp [glob_star_cons]

theorem glob_star_exists (p : List Char) (k : List Char) :
    globMatch ('*' :: p) k = true ↔ ∃ i, globMatch p (k.drop i) = true := by
  induction k with
  | nil =>
    rw [glob_star_nil]
    constructor
    · exact fun h => ⟨0, h⟩
    · rintro ⟨i, hi⟩
      simpa using hi
  | cons c k₁ ih =>
    rw [glob_star_cons]
    simp only [Bool.or_eq_true, ih]
    constructor
    · rintro (h | ⟨i, hi⟩)
      · exact ⟨0, h⟩
      · exact ⟨i + 1, hi⟩
    · rintro ⟨i, hi⟩
      cases i with
      | zero => exact Or.inl hi
      | succ j => exact Or.inr ⟨j, hi⟩

theorem glob_append_lit (chunk : List Char) (hc : ∀ c ∈ chunk, c ≠ '*') (q s : List Char) :
    globMatch (chunk ++ q) s =
      (chunk.isPrefixOf s && globMatch q (s.drop chunk.length)) := by
  induction chunk generalizing s with
  | nil => simp
  | cons c cs ih =>
    have hch : c ≠ '*' := hc c (List.mem_cons_self _ _)
    have hcs : ∀ d ∈ cs, d ≠ '*' := fun d hd => hc d (List.mem_cons_of_mem _ hd)
    rw [List.cons_append, glob_lit_cons _ _ hch]
    cases s with
    | nil => simp [List.isPrefixOf]
    | cons c₁ s₁ =>
      simp only [List.isPrefixOf_cons₂_self]
      by_cases he : c = c₁
      · subst he
        simp [ih hcs, List.isPrefixOf]
      · simp [he, List.isPrefixOf, Ne.symm he, beq_false_of_ne he]

theorem boolEqOfIff {a b : Bool} (h : a = true ↔ b = true) : a = b := by
  cases a <;> cases b <;> simp_all

theorem glob_star_drop_le (q : List Char) (s : List Char) (i j : Nat) (hij : i ≤ j)
    (h : globMatch ('*' :: q) (s.drop j) = true) :
    globMatch ('*' :: q) (s.drop i) = true := by
  rw [glob_star_exists] at h ⊢
  obtain ⟨m, hm⟩ := h
  refine ⟨(j - i) + m, ?_⟩
  rw [List.drop_drop]
  rw [List.drop_drop] at hm
  have heq : i + (j - i + m) = j + m := by omega
  rw [heq]
  exact hm

theorem glob_all_star (p : List Char) (hp : ∀ c ∈ p, c = '*') (hne : p ≠ []) (k : List Char) :
    globMatch p k = true := by
  induction p generalizing k with
  | nil => exact absurd rfl hne
  | cons c rest ih =>
    have hc : c = '*' := hp c (List.mem_cons_self _ _)
    subst hc
    rw [glob_star_exists]
    cases rest with
    | nil =>
      refine ⟨k.length, ?_⟩
      simp [glob_nil]
    | cons d rest₂ =>
      refine ⟨0, ?_⟩
      simpa using ih (fun c hm => hp c (List.mem_cons_of_mem _ hm)) (by simp) k

theorem glob_collapse (q k : List Char) :
    globMatch ('*' :: '*' :: q) k = globMatch ('*' :: q) k := by
  refine boolEqOfIff ?_
  rw [glob_star_exists]
  constructor
  · rintro ⟨i, hi⟩
    have := glob_star_drop_le q k 0 i (Nat.zero_le _) hi
    simpa using this
  · intro h
    exact ⟨0, by simpa using h⟩

theorem glob_leading_stars (stars q k : List Char) (hne : stars ≠ [])
    (hall : ∀ c ∈ stars, c = '*') :
    globMatch (stars ++ q) k = globMatch ('*' :: q) k := by
  induction stars generalizing k with
  | nil => exact absurd rfl hne
  | cons c rest ih =>
    have hc : c = '*' := hall c (List.mem_cons_self _ _)
    subst hc
    cases rest with
    | nil => rfl
    | cons d rest₂ =>
      have hd : d = '*' := hall d (List.mem_cons_of_mem _ (List.mem_cons_self _ _))
      subst hd
      refine boolEqOfIff ?_
      rw [List.cons_append, glob_star_exists, glob_star_exists]
      constructor
      · rintro ⟨i, hi⟩
        rw [ih _ (by simp) (fun c hm => hall c (List.mem_cons_of_mem _ hm))] at hi
        rw [glob_star_exists] at hi
        obtain ⟨m, hm⟩ := hi
        rw [List.drop_drop] at hm
        exact ⟨i + m, hm⟩
      · rintro ⟨i, hi⟩
        refine ⟨0, ?_⟩
        rw [ih _ (by simp) (fun c hm => hall c (List.mem_cons_of_mem _ hm))]
        rw [glob_star_exists]
        exact ⟨i, by simpa using hi⟩

theorem glob_star_commit (chunk : List Char) (hc : ∀ c ∈ chunk, c ≠ '*') (q s : List Char)
    (hA : chunk.isPrefixOf s = true) :
    globMatch ('*' :: (chunk ++ '*' :: q)) s = globMatch ('*' :: q) (s.drop chunk.length) := by
  refine boolEqOfIff ?_
  constructor
  · intro h
    rw [glob_star_exists] at h
    obtain ⟨i, hi⟩ := h
    rw [glob_append_lit chunk hc] at hi
    rcases Bool.and_eq_true .. ▸ hi with ⟨hpre, hrest⟩
    rw [List.drop_drop] at hrest
    exact glob_star_drop_le q s chunk.length (i + chunk.length)
      (Nat.le_add_left _ _) hrest
  · intro h
    rw [glob_star_exists]
    refine ⟨0, ?_⟩
    rw [List.drop_zero, glob_append_lit chunk hc, hA]
    simpa using h

theorem glob_last_commit (chunk : List Char) (hc : ∀ c ∈ chunk, c ≠ '*') (s : List Char)
    (hA : chunk.isPrefixOf s = true) (ht : s.drop chunk.length = []) :
    globMatch ('*' :: chunk) s = true := by
  rw [glob_star_exists]
  refine ⟨0, ?_⟩
  rw [List.drop_zero]
  have : globMatch (chunk ++ []) s = true := by
    rw [glob_append_lit chunk hc, hA, ht]
    simp [glob_nil]
  simpa using this

theorem scanChunkCore_clean (l : List Char) (hl : ∀ c ∈ l, c ≠ '[' ∧ c ≠ '\\') :
    (scanChunkCore false l).1.1 = l.takeWhile (fun c => c ≠ '*') ∧
    (scanChunkCore false l).1.2 = l.dropWhile (fun c => c ≠ '*') := by
  induction l with
  | nil => constructor <;> rfl
  | cons c rest ih =>
    have h2 : c ≠ '[' := (hl c (List.mem_cons_self _ _)).1
    have h1 : c ≠ '\\' := (hl c (List.mem_cons_self _ _)).2
    have ihr := ih (fun d hd => hl d (List.mem_cons_of_mem _ hd))
    by_cases h4 : c = '*'
    · subst h4
      cases rest with
      | nil => constructor <;> simp [scanChunkCore, List.takeWhile_cons, List.dropWhile_cons]
      | cons d r₂ =>
        constructor <;> simp [scanChunkCore, List.takeWhile_cons, List.dropWhile_cons]
    · by_cases h3 : c = ']'
      · subst h3
        cases rest with
        | nil =>
          constructor <;>
            simp [scanChunkCore, List.takeWhile_cons, List.dropWhile_cons, h4]
        | cons d r₂ =>
          constructor <;>
            simp [scanChunkCore, List.takeWhile_cons, List.dropWhile_cons, h4, ihr.1, ihr.2]
      · cases rest with
        | nil =>
          constructor <;>
            simp [scanChunkCore, List.takeWhile_cons, List.dropWhile_cons, h1, h2, h3, h4]
        | cons d r₂ =>
          constructor <;>
            simp [scanChunkCore, List.takeWhile_cons, List.dropWhile_cons, h1, h2, h3, h4,
              ihr.1, ihr.2]

theorem matchChunk_lit_failed (chunk : List Char)
    (hc : ∀ c ∈ chunk, c ≠ '[' ∧ c ≠ '?' ∧ c ≠ '\\') (s : List Char) :
    matchChunkGo chunk s true = .ok ([], false) := by
  induction chunk generalizing s with
  | nil => simp [matchChunkGo]
  | cons c rest ih =>
    have h1 : c ≠ '[' := (hc c (List.mem_cons_self _ _)).1
    have h2 : c ≠ '?' := (hc c (List.mem_cons_self _ _)).2.1
    have h3 : c ≠ '\\' := (hc c (List.mem_cons_self _ _)).2.2
    have ihr := ih (fun d hd => hc d (List.mem_cons_of_mem _ hd))
    cases rest with
    | nil => simp [matchChunkGo, h1, h2, h3, ihr]
    | cons d r₂ => simp [matchChunkGo, h1, h2, h3, ihr]

theorem matchChunk_lit (chunk : List Char)
    (hc : ∀ c ∈ chunk, c ≠ '[' ∧ c ≠ '?' ∧ c ≠ '\\') (s : List Char) :
    matchChunkGo chunk s false =
      .ok (if chunk.isPrefixOf s then s.drop chunk.length else [], chunk.isPrefixOf s) := by
  induction chunk generalizing s with
  | nil => simp [matchChunkGo, List.isPrefixOf]
  | cons c rest ih =>
    have h1 : c ≠ '[' := (hc c (List.mem_cons_self _ _)).1
    have h2 : c ≠ '?' := (hc c (List.mem_cons_self _ _)).2.1
    have h3 : c ≠ '\\' := (hc c (List.mem_cons_self _ _)).2.2
    have hcr : ∀ d ∈ rest, d ≠ '[' ∧ d ≠ '?' ∧ d ≠ '\\' :=
      fun d hd => hc d (List.mem_cons_of_mem _ hd)
    cases s with
    | nil =>
      cases rest with
      | nil => simp [matchChunkGo, h1, h2, h3, List.isPrefixOf]
      | cons d r₂ =>
        simp [matchChunkGo, h1, h2, h3, matchChunk_lit_failed _ hcr, List.isPrefixOf]
    | cons c₁ s₁ =>
      have hunf : matchChunkGo (c :: rest) (c₁ :: s₁) false =
          matchChunkGo rest s₁ (decide (c ≠ c₁)) := by
        cases rest with
        | nil => simp [matchChunkGo, h1, h2, h3]
        | cons d r₂ => simp [matchChunkGo, h1, h2, h3]
      rw [hunf]
      by_cases he : c = c₁
      · subst he
        have hd : (decide (c ≠ c)) = false := by simp
        rw [hd, ih hcr]
        simp [List.isPrefixOf_cons₂_self, List.drop_succ_cons]
      · have hd : (decide (c ≠ c₁)) = true := by simp [he]
        rw [hd, matchChunk_lit_failed _ hcr]
        simp [List.isPrefixOf, beq_false_of_ne he]

theorem head_dropWhile_false {α : Type} (p : α → Bool) (l : List α) (c : α)
    (h : (l.dropWhile p).head? = some c) : p c = false := by
  induction l with
  | nil => simp [List.dropWhile] at h
  | cons a l ih =>
    rw [List.dropWhile_cons] at h
    split at h
    · exact ih h
    · rename_i ha
      simp only [List.head?_cons, Option.some.injEq] at h
      subst h
      simpa using ha

theorem length_dropWhile_le' {α : Type} (p : α → Bool) (l : List α) :
    (l.dropWhile p).length ≤ l.length := by
  induction l with
  | nil => simp
  | cons a l ih =>
    rw [List.dropWhile_cons]
    split
    · exact le_trans ih (by simp)
    · simp

theorem rest_length_lt (p : List Char) (hne : p ≠ []) :
    ((p.dropWhile (fun c => c = '*')).dropWhile (fun c => c ≠ '*')).length < p.length := by
  cases p with
  | nil => exact absurd rfl hne
  | cons c p₁ =>
    by_cases hc : c = '*'
    · have h1 : (c :: p₁).dropWhile (fun c => c = '*') = p₁.dropWhile (fun c => c = '*') := by
        simp [List.dropWhile_cons, hc]
      rw [h1]
      calc (List.dropWhile (fun c => c ≠ '*') (p₁.dropWhile (fun c => c = '*'))).length
          ≤ (p₁.dropWhile (fun c => c = '*')).length := length_dropWhile_le' _ _
        _ ≤ p₁.length := length_dropWhile_le' _ _
        _ < (c :: p₁).length := by simp
    · have h1 : (c :: p₁).dropWhile (fun c => c = '*') = c :: p₁ := by
        simp [List.dropWhile_cons, hc]
      rw [h1]
      have h2 : (c :: p₁).dropWhile (fun c => c ≠ '*') = p₁.dropWhile (fun c => c ≠ '*') := by
        simp [List.dropWhile_cons, hc]
      rw [h2]
      calc (p₁.dropWhile (fun c => c ≠ '*')).length
          ≤ p₁.length := length_dropWhile_le' _ _
        _ < (c :: p₁).length := by simp

theorem patCheck_clean : ∀ (n : Nat) (p : List Char), p.length ≤ n →
    (∀ c ∈ p, c ≠ '?' ∧ c ≠ '[' ∧ c ≠ '\\') → patCheck p = .ok false := by
  intro n
  induction n with
  | zero =>
    intro p hlen _
    have hp : p = [] := List.length_eq_zero.mp (Nat.le_zero.mp hlen)
    subst hp
    simp [patCheck]
  | succ n ih =>
    intro p hlen hcl
    by_cases hp : p = []
    · subst hp
      simp [patCheck]
    · have hS : ∀ c ∈ p.dropWhile (fun c => c = '*'), c ≠ '?' ∧ c ≠ '[' ∧ c ≠ '\\' :=
        fun c hm => hcl c ((List.dropWhile_sublist _).subset hm)
      have hscan := scanChunkCore_clean (p.dropWhile (fun c => c = '*'))
        (fun c hm => ⟨(hS c hm).2.1, (hS c hm).2.2⟩)
      have hchunk : ∀ c ∈ (p.dropWhile (fun c => c = '*')).takeWhile (fun c => c ≠ '*'),
          c ≠ '[' ∧ c ≠ '?' ∧ c ≠ '\\' := by
        intro c hm
        have hmem : c ∈ p.dropWhile (fun c => c = '*') := (List.takeWhile_sublist _).subset hm
        exact ⟨(hS c hmem).2.1, (hS c hmem).1, (hS c hmem).2.2⟩
      have hrestcl : ∀ c ∈ (p.dropWhile (fun c => c = '*')).dropWhile (fun c => c ≠ '*'),
          c ≠ '?' ∧ c ≠ '[' ∧ c ≠ '\\' :=
        fun c hm => hS c ((List.dropWhile_sublist _).subset hm)
      have hempty : ¬ p.isEmpty = true := by
        cases p
        · exact absurd rfl hp
        · simp
      rw [patCheck, dif_neg hempty]
      simp only [hscan.1, hscan.2, matchChunk_lit _ hchunk]
      exact ih _ (by have := rest_length_lt p hp; omega) hrestcl

theorem glob_commit_eq (chunk : List Char) (hstar : ∀ c ∈ chunk, c ≠ '*')
    (rest s : List Char) (hrest : rest = [] ∨ ∃ q, rest = '*' :: q)
    (hA : chunk.isPrefixOf s = true)
    (hcond : s.drop chunk.length = [] ∨ rest ≠ []) :
    globMatch ('*' :: (chunk ++ rest)) s = globMatch rest (s.drop chunk.length) := by
  rcases hrest with rfl | ⟨q, rfl⟩
  · have ht : s.drop chunk.length = [] := by
      rcases hcond with h | h
      · exact h
      · exact absurd rfl h
    have h2 : globMatch ('*' :: (chunk ++ [])) s = true := by
      have h3 := glob_last_commit chunk hstar s hA ht
      simpa using h3
    rw [h2, ht, glob_nil]
    rfl
  · exact glob_star_commit chunk hstar q s hA

theorem glob_chunk_false (chunk rest s : List Char) (hstar : ∀ c ∈ chunk, c ≠ '*')
    (hnc : ¬(chunk.isPrefixOf s = true ∧ (s.drop chunk.length = [] ∨ rest ≠ []))) :
    globMatch (chunk ++ rest) s = false := by
  rw [glob_append_lit chunk hstar]
  by_cases hA : chunk.isPrefixOf s = true
  · push_neg at hnc
    obtain ⟨ht, hrest⟩ := hnc hA
    subst hrest
    have hti : (s.drop chunk.length).isEmpty = false := by
      cases hd : s.drop chunk.length
      · exact absurd hd ht
      · rfl
    rw [glob_nil]
    simp [hA, hti]
  · have hA₂ : chunk.isPrefixOf s = false := by
      cases h : chunk.isPrefixOf s
      · rfl
      · exact absurd h hA
    simp [hA₂]

theorem starSearch_bridge (chunk : List Char) (hne : chunk ≠ [])
    (hcl : ∀ c ∈ chunk, c ≠ '[' ∧ c ≠ '?' ∧ c ≠ '\\') (hstar : ∀ c ∈ chunk, c ≠ '*')
    (rest : List Char) (hrest : rest = [] ∨ ∃ q, rest = '*' :: q)
    (hrestcl : ∀ c ∈ rest, c ≠ '?' ∧ c ≠ '[' ∧ c ≠ '\\')
    (IH : ∀ t, '/' ∉ t → goMatch rest t = .ok (globMatch rest t)) :
    ∀ name, '/' ∉ name →
      (match starSearch chunk rest.isEmpty name with
       | .error _ => (Except.error () : Except Unit Bool)
       | .ok (some t₂) => goMatch rest t₂
       | .ok none => patCheck rest) =
        .ok (globMatch ('*' :: (chunk ++ rest)) (name.drop 1)) := by
  intro name
  induction name with
  | nil =>
    intro _
    have hpc := patCheck_clean rest.length rest le_rfl hrestcl
    have hpre : chunk.isPrefixOf ([] : List Char) = false := by
      cases chunk
      · exact absurd rfl hne
      · rfl
    have hfalse : globMatch (chunk ++ rest) [] = false := by
      rw [glob_append_lit chunk hstar, hpre]
      rfl
    simp [starSearch, hpc, List.drop_nil, glob_star_nil, hfalse]
  | cons c name₁ ihn =>
    intro hk
    have hcslash : c ≠ '/' := fun he => hk (he ▸ List.mem_cons_self _ _)
    have hk₁ : '/' ∉ name₁ := fun hm => hk (List.mem_cons_of_mem _ hm)
    have hmc := matchChunk_lit chunk hcl name₁
    by_cases hA : chunk.isPrefixOf name₁ = true
    · by_cases hskip : rest.isEmpty = true ∧ (name₁.drop chunk.length).isEmpty = false
      · -- found a match but the last chunk does not exhaust the name: keep searching
        have hstep : starSearch chunk rest.isEmpty (c :: name₁) =
            starSearch chunk rest.isEmpty name₁ := by
          rw [starSearch]
          simp [hcslash, hmc, hA, hskip.1, hskip.2]
        rw [hstep, ihn hk₁]
        have hXfalse : globMatch (chunk ++ rest) name₁ = false := by
          have hrnil : rest = [] := by
            rcases hrest with h | ⟨q, hq⟩
            · exact h
            · rw [hq] at hskip
              simp at hskip
          apply glob_chunk_false chunk rest name₁ hstar
          rintro ⟨_, ht | hr⟩
          · rw [ht] at hskip
            simp at hskip
          · exact hr hrnil
        have hstep₂ : globMatch ('*' :: (chunk ++ rest)) ((c :: name₁).drop 1) =
            globMatch ('*' :: (chunk ++ rest)) (name₁.drop 1) := by
          rw [List.drop_one, List.tail_cons, glob_star_one, hXfalse]
          simp
        rw [hstep₂]
      · -- commit to this match
        have hcond : name₁.drop chunk.length = [] ∨ rest ≠ [] := by
          by_cases hr : rest.isEmpty = true
          · left
            rcases hd : name₁.drop chunk.length with _ | ⟨d, ds⟩
            · rfl
            · exact absurd ⟨hr, by rw [hd]; rfl⟩ hskip
          · right
            intro hnil
            exact hr (by rw [hnil]; rfl)
        have hstep : starSearch chunk rest.isEmpty (c :: name₁) =
            .ok (some (name₁.drop chunk.length)) := by
          rw [starSearch]
          rcases hcond with ht | hr
          · simp [hcslash, hmc, hA, ht]
          · have hre : rest.isEmpty = false := by
              cases hrs : rest
              · exact absurd hrs hr
              · rfl
            simp [hcslash, hmc, hA, hre]
        rw [hstep]
        have hsuffix : '/' ∉ name₁.drop chunk.length :=
          fun hm => hk₁ (List.mem_of_mem_drop hm)
        show goMatch rest (name₁.drop chunk.length) = _
        rw [IH _ hsuffix]
        have hcom := glob_commit_eq chunk hstar rest name₁ hrest hA hcond
        rw [List.drop_one, List.tail_cons, hcom]
    · -- chunk does not match here: keep searching
      have hA₂ : chunk.isPrefixOf name₁ = false := by
        cases h : chunk.isPrefixOf name₁
        · rfl
        · exact absurd h hA
      have hstep : starSearch chunk rest.isEmpty (c :: name₁) =
          starSearch chunk rest.isEmpty name₁ := by
        rw [starSearch]
        simp [hcslash, hmc, hA₂]
      rw [hstep, ihn hk₁]
      have hXfalse : globMatch (chunk ++ rest) name₁ = false := by
        apply glob_chunk_false chunk rest name₁ hstar
        rintro ⟨h, _⟩
        rw [h] at hA₂
        cases hA₂
      have hstep₂ : globMatch ('*' :: (chunk ++ rest)) ((c :: name₁).drop 1) =
          globMatch ('*' :: (chunk ++ rest)) (name₁.drop 1) := by
        rw [List.drop_one, List.tail_cons, glob_star_one, hXfalse]
        simp
      rw [hstep₂]

theorem goMatch_clean : ∀ (n : Nat) (p : List Char), p.length ≤ n →
    (∀ c ∈ p, c ≠ '?' ∧ c ≠ '[' ∧ c ≠ '\\') →
    ∀ k, '/' ∉ k → goMatch p k = .ok (globMatch p k) := by
  intro n
  induction n with
  | zero =>
    intro p hlen _ k _
    have hp : p = [] := List.length_eq_zero.mp (Nat.le_zero.mp hlen)
    subst hp
    simp [goMatch, glob_nil]
  | succ n ihN =>
    intro p hlen hcl k hk
    cases hpc : p with
    | nil => simp [goMatch, glob_nil]
    | cons p₀ pRest =>
      subst hpc
      have hSsub : ∀ c ∈ (p₀ :: pRest).dropWhile (fun c => c = '*'),
          c ≠ '?' ∧ c ≠ '[' ∧ c ≠ '\\' :=
        fun c hm => hcl c ((List.dropWhile_sublist _).subset hm)
      have hscan := scanChunkCore_clean ((p₀ :: pRest).dropWhile (fun c => c = '*'))
        (fun c hm => ⟨(hSsub c hm).2.1, (hSsub c hm).2.2⟩)
      have hchunkcl : ∀ c ∈ ((p₀ :: pRest).dropWhile (fun c => c = '*')).takeWhile
          (fun c => c ≠ '*'), c ≠ '[' ∧ c ≠ '?' ∧ c ≠ '\\' := by
        intro c hm
        have hm₂ := (List.takeWhile_sublist _).subset hm
        exact ⟨(hSsub c hm₂).2.1, (hSsub c hm₂).1, (hSsub c hm₂).2.2⟩
      have hchunkstar : ∀ c ∈ ((p₀ :: pRest).dropWhile (fun c => c = '*')).takeWhile
          (fun c => c ≠ '*'), c ≠ '*' := by
        intro c hm
        simpa using List.mem_takeWhile_imp hm
      have hrestcl : ∀ c ∈ ((p₀ :: pRest).dropWhile (fun c => c = '*')).dropWhile
          (fun c => c ≠ '*'), c ≠ '?' ∧ c ≠ '[' ∧ c ≠ '\\' :=
        fun c hm => hSsub c ((List.dropWhile_sublist _).subset hm)
      have hreststar : ((p₀ :: pRest).dropWhile (fun c => c = '*')).dropWhile
          (fun c => c ≠ '*') = [] ∨
          ∃ q, ((p₀ :: pRest).dropWhile (fun c => c = '*')).dropWhile
            (fun c => c ≠ '*') = '*' :: q := by
        cases hd : ((p₀ :: pRest).dropWhile (fun c => c = '*')).dropWhile (fun c => c ≠ '*') with
        | nil => exact Or.inl rfl
        | cons d q =>
          have := head_dropWhile_false (fun c => decide (c ≠ '*'))
            ((p₀ :: pRest).dropWhile (fun c => c = '*')) d (by rw [hd]; rfl)
          simp at this
          subst this
          exact Or.inr ⟨q, rfl⟩
      have hrlen :
          (((p₀ :: pRest).dropWhile (fun c => c = '*')).dropWhile (fun c => c ≠ '*')).length ≤ n := by
        have h₁ := rest_length_lt (p₀ :: pRest) (by simp)
        simp only [List.length_cons] at h₁ hlen
        omega
      have hIHrest : ∀ t, '/' ∉ t →
          goMatch (((p₀ :: pRest).dropWhile (fun c => c = '*')).dropWhile (fun c => c ≠ '*')) t =
            .ok (globMatch
              (((p₀ :: pRest).dropWhile (fun c => c = '*')).dropWhile (fun c => c ≠ '*')) t) :=
        fun t ht => ihN _ hrlen hrestcl t ht
      have hstars : ∀ c ∈ (p₀ :: pRest).takeWhile (fun c => c = '*'), c = '*' := by
        intro c hm
        simpa using List.mem_takeWhile_imp hm
      set S := (p₀ :: pRest).dropWhile (fun c => c = '*') with hSdef
      set chunk := S.takeWhile (fun c => c ≠ '*') with hchunkdef
      set rest := S.dropWhile (fun c => c ≠ '*') with hrestdef
      have hsplit : chunk ++ rest = S := List.takeWhile_append_dropWhile _ _
      have hP : (p₀ :: pRest).takeWhile (fun c => c = '*') ++ S = p₀ :: pRest :=
        List.takeWhile_append_dropWhile _ _
      clear_value S chunk rest
      rw [goMatch]
      rw [← hSdef]
      simp only [hscan.1, hscan.2]
      by_cases hch : chunk = []
      · have hrestnil : rest = [] := by
          rcases hreststar with h | ⟨q, hq⟩
          · exact h
          · exfalso
            have hSr : S = rest := by rw [← hsplit, hch, List.nil_append]
            have hhead : ((p₀ :: pRest).dropWhile (fun c => decide (c = '*'))).head? = some '*' := by
              rw [← hSdef, hSr, hq]
              rfl
            have hbad := head_dropWhile_false _ _ _ hhead
            simp at hbad
        have hS0 : S = [] := by rw [← hsplit, hch, hrestnil]; rfl
        rw [hS0, List.append_nil] at hP
        have hp₀ : p₀ = '*' := hstars p₀ (by rw [hP]; exact List.mem_cons_self p₀ pRest)
        have hcont : k.contains '/' = false := by
          cases hc : k.contains '/'
          · rfl
          · exact absurd (List.mem_of_elem_eq_true hc) hk
        have hall : globMatch (p₀ :: pRest) k = true := by
          refine glob_all_star _ (fun c hm => hstars c (by rw [hP]; exact hm)) (by simp) k
        rw [hall]
        simp [hch, hp₀, hcont, hk]
      · have hchE : chunk.isEmpty = false := by
          cases hc : chunk with
          | nil => exact absurd hc hch
          | cons a b => rfl
        simp only [hchE, Bool.and_false, Bool.false_eq_true, if_false]
        simp only [matchChunk_lit chunk hchunkcl k]
        by_cases hA : chunk.isPrefixOf k = true
        · by_cases hcond : k.drop chunk.length = [] ∨ rest ≠ []
          · -- the chunk matches at position zero and the loop commits to it
            have hgd : ((k.drop chunk.length).isEmpty || !rest.isEmpty) = true := by
              rcases hcond with ht | hr
              · rw [ht]
                rfl
              · have : rest.isEmpty = false := by
                  cases hrs : rest with
                  | nil => exact absurd hrs hr
                  | cons a b => rfl
                rw [this]
                simp
            have hsuffix : '/' ∉ k.drop chunk.length := fun hm => hk (List.mem_of_mem_drop hm)
            simp only [hA, if_true, Bool.true_and, hgd, if_pos rfl]
            rw [hIHrest _ hsuffix]
            have hgl : globMatch (p₀ :: pRest) k = globMatch rest (k.drop chunk.length) := by
              by_cases hstar₀ : p₀ = '*'
              · have hstne : (p₀ :: pRest).takeWhile (fun c => c = '*') ≠ [] := by
                  simp [List.takeWhile_cons, hstar₀]
                rw [← hP, glob_leading_stars _ _ _ hstne hstars, ← hsplit]
                exact glob_commit_eq chunk hchunkstar rest k hreststar hA hcond
              · have hstars0 : (p₀ :: pRest).takeWhile (fun c => c = '*') = [] := by
                  simp [List.takeWhile_cons, hstar₀]
                have hpS : p₀ :: pRest = S := by rw [← hP, hstars0, List.nil_append]
                rw [hpS, ← hsplit, glob_append_lit chunk hchunkstar, hA]
                simp
            rw [hgl]
          · -- matched but no commit: the chunk is last and does not exhaust the name
            push_neg at hcond
            obtain ⟨ht, hrnil⟩ := hcond
            have hrnil₂ : rest = [] := hrnil
            have htE : (k.drop chunk.length).isEmpty = false := by
              cases hd : k.drop chunk.length with
              | nil => exact absurd hd ht
              | cons a b => rfl
            have hre : rest.isEmpty = true := by rw [hrnil₂]; rfl
            have hnc : ¬(chunk.isPrefixOf k = true ∧
                (k.drop chunk.length = [] ∨ rest ≠ [])) := by
              rintro ⟨_, hc | hc⟩
              · exact ht hc
              · exact hc hrnil₂
            have hXf : globMatch (chunk ++ rest) k = false :=
              glob_chunk_false chunk rest k hchunkstar hnc
            simp only [hA, if_true, Bool.true_and, htE, hre, Bool.not_true, Bool.or_false,
              Bool.false_eq_true, if_false]
            by_cases hstar₀ : p₀ = '*'
            · rw [if_pos (show decide (p₀ = '*') = true by simp [hstar₀])]
              have hstne : (p₀ :: pRest).takeWhile (fun c => c = '*') ≠ [] := by
                simp [List.takeWhile_cons, hstar₀]
              have hgl : globMatch (p₀ :: pRest) k =
                  globMatch ('*' :: (chunk ++ rest)) (k.drop 1) := by
                rw [← hP, glob_leading_stars _ _ _ hstne hstars, ← hsplit, glob_star_one, hXf]
                simp
              rw [hgl]
              have hbr := starSearch_bridge chunk hch hchunkcl hchunkstar rest hreststar hrestcl
                hIHrest k hk
              rw [hre] at hbr
              exact hbr
            · rw [if_neg (show ¬ decide (p₀ = '*') = true by simp [hstar₀])]
              rw [patCheck_clean rest.length rest le_rfl hrestcl]
              have hstars0 : (p₀ :: pRest).takeWhile (fun c => c = '*') = [] := by
                simp [List.takeWhile_cons, hstar₀]
              have hpS : p₀ :: pRest = S := by rw [← hP, hstars0, List.nil_append]
              have hgl : globMatch (p₀ :: pRest) k = false := by
                rw [hpS, ← hsplit]
                exact hXf
              rw [hgl]
        · -- the chunk does not match at position zero
          have hA₂ : chunk.isPrefixOf k = false := by
            cases hc : chunk.isPrefixOf k
            · rfl
            · exact absurd hc hA
          have hnc : ¬(chunk.isPrefixOf k = true ∧
              (k.drop chunk.length = [] ∨ rest ≠ [])) := by
            rintro ⟨hc, _⟩
            rw [hc] at hA₂
            cases hA₂
          have hXf : globMatch (chunk ++ rest) k = false :=
            glob_chunk_false chunk rest k hchunkstar hnc
          simp only [hA₂, Bool.false_and, Bool.false_eq_true, if_false]
          by_cases hstar₀ : p₀ = '*'
          · rw [if_pos (show decide (p₀ = '*') = true by simp [hstar₀])]
            have hstne : (p₀ :: pRest).takeWhile (fun c => c = '*') ≠ [] := by
              simp [List.takeWhile_cons, hstar₀]
            have hgl : globMatch (p₀ :: pRest) k =
                globMatch ('*' :: (chunk ++ rest)) (k.drop 1) := by
              rw [← hP, glob_leading_stars _ _ _ hstne hstars, ← hsplit, glob_star_one, hXf]
              simp
            rw [hgl]
            exact starSearch_bridge chunk hch hchunkcl hchunkstar rest hreststar hrestcl
              hIHrest k hk
          · rw [if_neg (show ¬ decide (p₀ = '*') = true by simp [hstar₀])]
            rw [patCheck_clean rest.length rest le_rfl hrestcl]
            have hstars0 : (p₀ :: pRest).takeWhile (fun c => c = '*') = [] := by
              simp [List.takeWhile_cons, hstar₀]
            have hpS : p₀ :: pRest = S := by rw [← hP, hstars0, List.nil_append]
            have hgl : globMatch (p₀ :: pRest) k = false := by
              rw [hpS, ← hsplit]
              exact hXf
            rw [hgl]
/-! ## Transfer of the spec glob across the dot-to-NUL substitution -/

theorem subDot_star_iff (c : Char) : subDot c = '*' ↔ c = '*' := by
  unfold subDot
  by_cases h : c = '.'
  · subst h
    rw [if_pos rfl]
    constructor
    · intro h'
      exact absurd h' (by decide)
    · intro h'
      exact absurd h' (by decide)
  · rw [if_neg h]

theorem subDot_inj_iff (c c₁ : Char) (hc : c ≠ Char.ofNat 0) (hc₁ : c₁ ≠ Char.ofNat 0) :
    subDot c = subDot c₁ ↔ c = c₁ := by
  unfold subDot
  by_cases h : c = '.' <;> by_cases h₁ : c₁ = '.'
  · subst h; subst h₁; simp
  · subst h
    rw [if_pos rfl, if_neg h₁]
    constructor
    · intro h'
      exact absurd h'.symm hc₁
    · intro h'
      exact absurd h'.symm h₁
  · subst h₁
    rw [if_neg h, if_pos rfl]
    constructor
    · intro h'
      exact absurd h' hc
    · intro h'
      exact absurd h' h
  · rw [if_neg h, if_neg h₁]

theorem glob_lit_cons2 (p : List Char) (c : Char) (hc : c ≠ '*') (c₁ : Char)
    (k₁ : List Char) :
    globMatch (c :: p) (c₁ :: k₁) = (c = c₁ && globMatch p k₁) := by
  rw [glob_lit_cons p c hc]

theorem glob_lit_nil (p : List Char) (c : Char) (hc : c ≠ '*') :
    globMatch (c :: p) [] = false := by
  rw [glob_lit_cons p c hc]

theorem glob_subDot : ∀ (n : Nat) (p k : List Char), p.length + k.length ≤ n →
    Char.ofNat 0 ∉ p → Char.ofNat 0 ∉ k →
    globMatch (subDotL p) (subDotL k) = globMatch p k := by
  intro n
  induction n with
  | zero =>
    intro p k hlen _ _
    have hp : p = [] := by
      cases p with
      | nil => rfl
      | cons a b => simp at hlen
    have hk : k = [] := by
      cases k with
      | nil => rfl
      | cons a b => simp [List.length_cons] at hlen
    subst hp; subst hk
    rfl
  | succ n ih =>
    intro p k hlen hp hk
    cases p with
    | nil =>
      rw [show subDotL [] = [] from rfl, glob_nil, glob_nil]
      cases k <;> rfl
    | cons c p₁ =>
      have hpc : subDotL (c :: p₁) = subDot c :: subDotL p₁ := rfl
      have hp₁ : Char.ofNat 0 ∉ p₁ := fun h => hp (List.mem_cons_of_mem _ h)
      have hcne : c ≠ Char.ofNat 0 := by
        intro h
        apply hp
        rw [← h]
        exact List.mem_cons_self c p₁
      by_cases hstar : c = '*'
      · subst hstar
        rw [hpc, show subDot '*' = '*' from rfl]
        cases k with
        | nil =>
          rw [show subDotL [] = [] from rfl, glob_star_nil, glob_star_nil]
          exact ih p₁ [] (by simp at hlen ⊢; omega) hp₁ hk
        | cons c₁ k₁ =>
          have hkc : subDotL (c₁ :: k₁) = subDot c₁ :: subDotL k₁ := rfl
          have hk₁ : Char.ofNat 0 ∉ k₁ := fun h => hk (List.mem_cons_of_mem _ h)
          rw [hkc, glob_star_cons, glob_star_cons]
          have hlen₁ : p₁.length + (c₁ :: k₁).length ≤ n := by
            simp [List.length_cons] at hlen ⊢
            omega
          have hlen₂ : ('*' :: p₁).length + k₁.length ≤ n := by
            simp [List.length_cons] at hlen ⊢
            omega
          have h1 : globMatch (subDotL p₁) (subDot c₁ :: subDotL k₁) =
              globMatch p₁ (c₁ :: k₁) := ih p₁ (c₁ :: k₁) hlen₁ hp₁ hk
          have h2 : globMatch ('*' :: subDotL p₁) (subDotL k₁) =
              globMatch ('*' :: p₁) k₁ := by
            have hstp : Char.ofNat 0 ∉ '*' :: p₁ := by
              intro h
              rcases List.mem_cons.mp h with h | h
              · exact absurd h.symm (by decide)
              · exact hp₁ h
            exact ih ('*' :: p₁) k₁ hlen₂ hstp hk₁
          rw [h1, h2]
      · have hsdc : subDot c ≠ '*' := fun h => hstar ((subDot_star_iff c).mp h)
        rw [hpc]
        cases k with
        | nil =>
          rw [show subDotL [] = [] from rfl, glob_lit_nil _ _ hsdc, glob_lit_nil _ _ hstar]
        | cons c₁ k₁ =>
          have hkc : subDotL (c₁ :: k₁) = subDot c₁ :: subDotL k₁ := rfl
          have hk₁ : Char.ofNat 0 ∉ k₁ := fun h => hk (List.mem_cons_of_mem _ h)
          have hc₁ne : c₁ ≠ Char.ofNat 0 := by
            intro h
            apply hk
            rw [← h]
            exact List.mem_cons_self c₁ k₁
          rw [hkc, glob_lit_cons2 _ _ hsdc, glob_lit_cons2 _ _ hstar]
          have hlen₁ : p₁.length + k₁.length ≤ n := by
            simp [List.length_cons] at hlen ⊢
            omega
          have hceq : (decide (subDot c = subDot c₁)) = (decide (c = c₁)) := by
            simp only [decide_eq_decide]
            exact subDot_inj_iff c c₁ hcne hc₁ne
          rw [hceq, ih p₁ k₁ hlen₁ hp₁ hk₁]

/-! ## C3: glob semantics of matchPattern -/

/-- C3: the claim is false as stated: beyond `*`, `filepath.Match` also
treats `?`, character classes and backslash escapes as metacharacters, so
`matchPattern "db.?" "db.x"` is `true` although under the spec semantics
(`*` the only wildcard, every other character literal) the pattern
`db.?` does not match the key `db.x`. -/
theorem C3_counterexample :
    matchPattern "db.?" "db.x" = true ∧
    globMatch "db.?".data "db.x".data = false := by
  constructor
  · simp [matchPattern, subDotL, subDot, goMatch, scanChunkCore, matchChunkGo,
      getEsc, matchRanges, patCheck, starSearch]
  · simp [globMatch]

/-- C3 (amended): for patterns free of the extra metacharacters `?`, `[`
and `\\`, and keys without `/` (whose Go-side handling `matchPattern`
ignores), and with no NUL character on either side (so the dot
substitution is faithful), `matchPattern` computes exactly the
specification semantics: `*` matches any run of characters and every
other character, dots included, matches itself literally. -/
theorem C3_amended (pattern key : String)
    (hcl : ∀ c ∈ pattern.data, c ≠ '?' ∧ c ≠ '[' ∧ c ≠ '\\')
    (hsl : '/' ∉ key.data)
    (hnp : Char.ofNat 0 ∉ pattern.data)
    (hnk : Char.ofNat 0 ∉ key.data) :
    matchPattern pattern key = globMatch pattern.data key.data := by
  have hclS : ∀ c ∈ subDotL pattern.data, c ≠ '?' ∧ c ≠ '[' ∧ c ≠ '\\' := by
    intro c hc
    rcases List.mem_map.mp hc with ⟨c₀, hc₀, hsd⟩
    rcases hcl c₀ hc₀ with ⟨h1, h2, h3⟩
    subst hsd
    unfold subDot
    by_cases h : c₀ = '.'
    · rw [if_pos h]
      refine ⟨by decide, by decide, by decide⟩
    · rw [if_neg h]
      exact ⟨h1, h2, h3⟩
  have hslS : '/' ∉ subDotL key.data := by
    intro hc
    rcases List.mem_map.mp hc with ⟨c₀, hc₀, hsd⟩
    apply hsl
    unfold subDot at hsd
    by_cases h : c₀ = '.'
    · rw [if_pos h] at hsd
      exact absurd hsd (by decide)
    · rw [if_neg h] at hsd
      rw [hsd] at hc₀
      exact hc₀
  have hgo := goMatch_clean (subDotL pattern.data).length (subDotL pattern.data)
    le_rfl hclS (subDotL key.data) hslS
  have htr := glob_subDot (pattern.data.length + key.data.length)
    pattern.data key.data le_rfl hnp hnk
  unfold matchPattern
  rw [hgo, htr]

/-- Witness for C3_amended on the concrete pattern `db.*` and key
`db.host`, where the result is `true`. -/
theorem C3_amended_witness :
    matchPattern "db.*" "db.host" = globMatch "db.*".data "db.host".data ∧
    matchPattern "db.*" "db.host" = true := by
  refine ⟨C3_amended "db.*" "db.host" (by decide) (by decide) (by decide) (by decide), ?_⟩
  simp [matchPattern, subDotL, subDot, goMatch, scanChunkCore, matchChunkGo,
    getEsc, matchRanges, patCheck, starSearch]

end Varnish
